import Mathlib

/-! The virtual keyboard controller of xboxdrv.

A shallow embedding of `src/virtualkeyboard/keyboard_controller.cpp`:
`KeyboardController::parse` (the event translator) and
`KeyboardController::on_timeout` (the motion integrator).

* The virtual keyboard is an external collaborator; a call on it is recorded as a
  `KeyboardCall`, and every operation returns the list of calls it issued, in order.
* `m_stick_x` and `m_stick_y` are C++ `float`s. A finite binary32 value is represented by
  the rational number it denotes, and every floating-point operation is the exact
  operation followed by `f32Round` (IEEE 754 round to nearest, ties to even, each
  operation rounded on its own, as the SSE code of an x86-64 build does).
* `ev.value` and the cursor position are C++ `int`s, represented by integers; the two
  places where the C++ result is undefined (`abs` of the least `int`, conversion to `int`
  of a value outside its range) follow what the x86-64 instructions produce.
-/

/-! ## Machine arithmetic -/

/-- Two's complement reduction of an integer to the range of a 32-bit `int`. -/
def wrap32 (n : ℤ) : ℤ := (n + 2 ^ 31) % 2 ^ 32 - 2 ^ 31

/-- The C function `abs` on `int`: negation wraps around, so the least `int` is mapped
to itself (the C standard leaves that one case undefined). -/
def abs32 (v : ℤ) : ℤ := if v < 0 then wrap32 (-v) else v

/-- Rounding of a rational to the nearest integer, a tie going to the even neighbour. -/
def roundNearestEven (q : ℚ) : ℤ :=
  if q - ⌊q⌋ < 1 / 2 then ⌊q⌋
  else if 1 / 2 < q - ⌊q⌋ then ⌊q⌋ + 1
  else if ⌊q⌋ % 2 = 0 then ⌊q⌋ else ⌊q⌋ + 1

/-- Exponent of the unit in the last place of binary32 at `q`: 24 significant bits,
least exponent `-149` (the subnormal range). -/
def f32Exp (q : ℚ) : ℤ := max (Int.log 2 |q| - 23) (-149)

/-- Rounding of a rational to binary32, round to nearest, ties to even. Overflow to
infinity is not represented: no magnitude above `2 ^ 128` arises below without the
following conversion to `int` being out of range already. -/
def f32Round (q : ℚ) : ℚ := roundNearestEven (q / 2 ^ f32Exp q) * 2 ^ f32Exp q

/-- Conversion `int` to `float`. -/
def f32OfInt (n : ℤ) : ℚ := f32Round n

/-- The `float` product. -/
def f32Mul (a b : ℚ) : ℚ := f32Round (a * b)

/-- The `float` sum. -/
def f32Add (a b : ℚ) : ℚ := f32Round (a + b)

/-- The `float` quotient. -/
def f32Div (a b : ℚ) : ℚ := f32Round (a / b)

/-- Truncation of a rational toward zero. -/
def truncToZero (q : ℚ) : ℤ := if 0 ≤ q then ⌊q⌋ else ⌈q⌉

/-- Conversion `float` to `int`: truncation toward zero; a value outside the range of
`int` (undefined in C++) gives the least `int`, as `cvttss2si` does. -/
def f32ToInt (q : ℚ) : ℤ :=
  if -2 ^ 31 ≤ truncToZero q ∧ truncToZero q < 2 ^ 31 then truncToZero q else -2 ^ 31

/-! ## Input events (`struct input_event` of `<linux/input.h>`) -/

/-- Event type of a key or button. -/
def EV_KEY : ℕ := 1

/-- Event type of an absolute axis. -/
def EV_ABS : ℕ := 3

/-- Axis code of the horizontal axis of the right stick. -/
def ABS_RX : ℕ := 3

/-- Axis code of the vertical axis of the right stick. -/
def ABS_RY : ℕ := 4

/-- Axis code of the horizontal hat axis. -/
def ABS_HAT0X : ℕ := 16

/-- Axis code of the vertical hat axis. -/
def ABS_HAT0Y : ℕ := 17

/-- The fields of `struct input_event` the controller reads: `type` and `code` are
unsigned 16-bit, `value` is a signed 32-bit `int`. -/
structure input_event where
  type : ℕ
  code : ℕ
  value : ℤ
  deriving DecidableEq

/-! ## The keyboard collaborator and the button table -/

/-- Modelled from the spec: the interface of the `VirtualKeyboard` collaborator, whose
header `virtual_keyboard.hpp` is not among the sources: `cursor_left()`, `cursor_right()`,
`cursor_up()`, `cursor_down()`, `send_key(code: integer)`, `show()`, `hide()`,
`get_position() -> (x: integer, y: integer)`, `move(x: integer, y: integer)`. A call is
recorded with the arguments written at the call site; `show_` stands for `show`. -/
inductive KeyboardCall where
  | cursor_left
  | cursor_right
  | cursor_up
  | cursor_down
  | send_key (value : ℤ)
  | show_
  | hide
  | get_position
  | move (x y : ℤ)
  deriving DecidableEq

/-- The button codes `kSendButton` .. `kHideButton` are declared in
`keyboard_controller.hpp`; their values are parameters here. They are the labels of one
`switch` statement, which C++ requires to be pairwise distinct. -/
structure ButtonBinding where
  kSendButton : ℕ
  kHoldButton : ℕ
  kCancelHoldButton : ℕ
  kShiftButton : ℕ
  kCtrlButton : ℕ
  kBackspaceButton : ℕ
  kHideButton : ℕ
  distinct : [kSendButton, kHoldButton, kCancelHoldButton, kShiftButton, kCtrlButton,
    kBackspaceButton, kHideButton].Nodup

/-- A button table with the evdev gamepad button codes `BTN_A` .. `BTN_TR`, to evaluate
the controller on concrete events. -/
def sampleBinding : ButtonBinding where
  kSendButton := 304
  kHoldButton := 305
  kCancelHoldButton := 306
  kShiftButton := 307
  kCtrlButton := 308
  kBackspaceButton := 310
  kHideButton := 311
  distinct := by decide

/-! ## The controller -/

/-- The mutable fields of `KeyboardController` that `parse` writes and `on_timeout`
reads: the axis state. -/
structure KeyboardController where
  m_stick_x : ℚ
  m_stick_y : ℚ
  deriving DecidableEq

/-- The axis state set by the member initialisers of the constructor:
`m_stick_x(0), m_stick_y(0)`. -/
def KeyboardController.constructed : KeyboardController :=
  { m_stick_x := 0, m_stick_y := 0 }

/-- What one operation of the controller did: the controller afterwards and the calls
issued on the keyboard, in order. -/
structure Outcome where
  ctrl : KeyboardController
  calls : List KeyboardCall
  deriving DecidableEq

/-- `KeyboardController::parse(const struct input_event& ev)`. -/
def KeyboardController.parse (b : ButtonBinding) (k : KeyboardController)
    (ev : input_event) : Outcome :=
  if ev.type = EV_ABS then
    if ev.code = ABS_HAT0X then
      if ev.value = -1 then ⟨k, [KeyboardCall.cursor_left]⟩
      else if ev.value = 1 then ⟨k, [KeyboardCall.cursor_right]⟩
      else ⟨k, []⟩
    else if ev.code = ABS_HAT0Y then
      if ev.value = -1 then ⟨k, [KeyboardCall.cursor_up]⟩
      else if ev.value = 1 then ⟨k, [KeyboardCall.cursor_down]⟩
      else ⟨k, []⟩
    else if ev.code = ABS_RX then
      if abs32 ev.value > 8000 then
        ⟨{ k with m_stick_x := f32Div (f32OfInt ev.value) 32768 }, []⟩
      else
        ⟨{ k with m_stick_x := 0 }, []⟩
    else if ev.code = ABS_RY then
      if abs32 ev.value > 8000 then
        ⟨{ k with m_stick_y := f32Div (f32OfInt ev.value) (-32768) }, []⟩
      else
        ⟨{ k with m_stick_y := 0 }, []⟩
    else ⟨k, []⟩
  else if ev.type = EV_KEY then
    if ev.code = b.kSendButton then ⟨k, [KeyboardCall.send_key ev.value]⟩
    else if ev.code = b.kHoldButton then ⟨k, []⟩
    else if ev.code = b.kCancelHoldButton then ⟨k, []⟩
    else if ev.code = b.kShiftButton then ⟨k, []⟩
    else if ev.code = b.kCtrlButton then ⟨k, []⟩
    else if ev.code = b.kBackspaceButton then ⟨k, []⟩
    else if ev.code = b.kHideButton then
      if ev.value ≠ 0 then ⟨k, [KeyboardCall.show_]⟩
      else ⟨k, [KeyboardCall.hide]⟩
    else ⟨k, []⟩
  else ⟨k, []⟩

/-- The events of a list handed to `parse` one after the other: the controller at the
end and all calls issued, in order. -/
def KeyboardController.parseAll (b : ButtonBinding) :
    KeyboardController → List input_event → Outcome
  | k, [] => ⟨k, []⟩
  | k, ev :: evs =>
    let o := k.parse b ev
    let r := KeyboardController.parseAll b o.ctrl evs
    ⟨r.ctrl, o.calls ++ r.calls⟩

/-- `KeyboardController::on_timeout()`: `pos` is the position `get_position` writes to
`x` and `y`; the result is the outcome and the returned `bool`. -/
def KeyboardController.on_timeout (k : KeyboardController) (pos : ℤ × ℤ) : Outcome × Bool :=
  let x := f32ToInt (f32Add (f32OfInt pos.1) (f32Mul k.m_stick_x 40))
  let y := f32ToInt (f32Add (f32OfInt pos.2) (f32Mul k.m_stick_y 40))
  (⟨k, [KeyboardCall.get_position, KeyboardCall.move x y]⟩, true)

/-- Both components of the axis state lie in `[-1, 1]`. -/
def KeyboardController.normalised (k : KeyboardController) : Prop :=
  -1 ≤ k.m_stick_x ∧ k.m_stick_x ≤ 1 ∧ -1 ≤ k.m_stick_y ∧ k.m_stick_y ≤ 1

/-! ## The event reader -/

/-- Whether `v` is a value of a signed 32-bit `int`. -/
def isInt32 (v : ℤ) : Prop := -2 ^ 31 ≤ v ∧ v < 2 ^ 31

/-- What one call `::read(m_fd, ev, sizeof(struct input_event) * 128)` did: the value it
returned (a byte count, `0` at end of stream, `-1` on an error or when the read would
block) and the records the array `ev` holds afterwards. -/
structure ReadResult where
  rd : ℤ
  ev : List input_event
  deriving DecidableEq

/-- The loop `for (size_t i = 0; i < n; ++i) parse(ev[i]);` of `on_read_data`, from
index `i` on with `todo` iterations left. The array has 128 entries and `read` returns no
more bytes than they hold, so `ev[i]` is inside it; the model reads an event that does
nothing where the list is shorter. -/
def KeyboardController.parseBuffer (b : ButtonBinding) (ev : List input_event) :
    ℕ → ℕ → KeyboardController → Outcome
  | 0, _, k => ⟨k, []⟩
  | todo + 1, i, k =>
    let o := k.parse b (ev.getD i ⟨0, 0, 0⟩)
    let r := KeyboardController.parseBuffer b ev todo (i + 1) o.ctrl
    ⟨r.ctrl, o.calls ++ r.calls⟩

/-- `KeyboardController::on_read_data(GIOChannel*, GIOCondition)`. `size` is
`sizeof(struct input_event)` and `reads` are the results of the successive calls of
`::read`. The `while` loop runs until a read returns a value that is not positive; the
result is `none` when the listed reads end before that, the loop still reading. The
`Bool` is the returned `gboolean`. -/
def KeyboardController.on_read_data (size : ℕ) (b : ButtonBinding) :
    KeyboardController → List ReadResult → Option (Outcome × Bool)
  | _, [] => none
  | k, r :: reads =>
    if r.rd > 0 then
      let o := KeyboardController.parseBuffer b r.ev (r.rd.toNat / size) 0 k
      match KeyboardController.on_read_data size b o.ctrl reads with
      | none => none
      | some (o2, ret) => some (⟨o2.ctrl, o.calls ++ o2.calls⟩, ret)
    else some (⟨k, []⟩, true)

/-- The translator folded from left to right over a list of events, as the spec words
it: the controller at the end and the calls issued so far, in order. -/
def foldParse (b : ButtonBinding) (k : KeyboardController) (evs : List input_event) :
    Outcome :=
  evs.foldl (fun acc ev => ⟨(acc.ctrl.parse b ev).ctrl, acc.calls ++ (acc.ctrl.parse b ev).calls⟩)
    ⟨k, []⟩

/-! ## The constructor -/

/-- A condition of `g_io_add_watch`. -/
inductive GIOCondition where
  | G_IO_IN
  | G_IO_ERR
  | G_IO_HUP
  deriving DecidableEq

/-- A call on GLib made by the constructor, with its arguments. -/
inductive LoopCall where
  | g_io_channel_unix_new (fd : ℤ)
  | g_io_channel_set_encoding (channel : ℕ)
  | log_error (message : String)
  | g_error_free
  | g_io_channel_set_buffered (channel : ℕ) (buffered : Bool)
  | g_io_add_watch (channel : ℕ) (condition : List GIOCondition)
  | g_timeout_add (interval : ℕ)
  deriving DecidableEq

/-- What the system answers to the constructor: the value of `open`, the text
`strerror(errno)` after it, the channel `g_io_channel_unix_new` returns, the error
message of `g_io_channel_set_encoding` when its status is not normal, and the source id
`g_timeout_add` returns. -/
structure ConstructorEnv where
  open_result : ℤ
  strerror_errno : String
  channel : ℕ
  encoding_error : Option String
  timeout_id : ℤ

/-- The members of a constructed `KeyboardController`. -/
structure Constructed where
  ctrl : KeyboardController
  m_device : String
  m_fd : ℤ
  m_io_channel : ℕ
  m_timeout_source : ℤ
  deriving DecidableEq

/-- The constructor `KeyboardController::KeyboardController(VirtualKeyboard&, const std::string&)`: the
GLib calls made, in order, and either the text of the `std::runtime_error` thrown or the
constructed members. -/
def KeyboardController.ctor (device : String) (env : ConstructorEnv) :
    List LoopCall × Except String Constructed :=
  let m_fd := env.open_result
  if m_fd = -1 then
    ([], Except.error (device ++ ": " ++ env.strerror_errno))
  else
    let m_io_channel := env.channel
    let encoding : List LoopCall :=
      match env.encoding_error with
      | none => [LoopCall.g_io_channel_set_encoding m_io_channel]
      | some message =>
        [LoopCall.g_io_channel_set_encoding m_io_channel, LoopCall.log_error message,
          LoopCall.g_error_free]
    ([LoopCall.g_io_channel_unix_new m_fd] ++ encoding ++
      [LoopCall.g_io_channel_set_buffered m_io_channel false,
        LoopCall.g_io_add_watch m_io_channel
          [GIOCondition.G_IO_IN, GIOCondition.G_IO_ERR, GIOCondition.G_IO_HUP],
        LoopCall.g_timeout_add 25],
      Except.ok
        { ctrl := KeyboardController.constructed
          m_device := device
          m_fd := m_fd
          m_io_channel := m_io_channel
          m_timeout_source := env.timeout_id })

/-! ## Reachable states -/

/-- The controllers reachable from the constructed one by `parse`, on events whose value
is a signed 32-bit `int`, and by `on_timeout`. -/
inductive KeyboardController.Reachable (b : ButtonBinding) : KeyboardController → Prop where
  | constructed : KeyboardController.Reachable b KeyboardController.constructed
  | parse (k : KeyboardController) (ev : input_event) :
      KeyboardController.Reachable b k → isInt32 ev.value →
      KeyboardController.Reachable b (k.parse b ev).ctrl
  | on_timeout (k : KeyboardController) (pos : ℤ × ℤ) :
      KeyboardController.Reachable b k →
      KeyboardController.Reachable b (k.on_timeout pos).1.ctrl

/-- Whether a GLib call registers a watch on a channel. -/
def LoopCall.isWatch : LoopCall → Bool
  | LoopCall.g_io_add_watch _ _ => true
  | _ => false

/-- Whether a GLib call registers a timer. -/
def LoopCall.isTimer : LoopCall → Bool
  | LoopCall.g_timeout_add _ => true
  | _ => false

/-- Whether an event is an ABS event with the given axis code. -/
def input_event.isAxis (code : ℕ) (ev : input_event) : Bool :=
  decide (ev.type = EV_ABS ∧ ev.code = code)

/-! ## Rounding lemmas -/

theorem roundNearestEven_intCast (n : ℤ) : roundNearestEven (n : ℚ) = n := by
  simp [roundNearestEven]

theorem roundNearestEven_cases (q : ℚ) :
    roundNearestEven q = ⌊q⌋ ∨ (roundNearestEven q = ⌊q⌋ + 1 ∧ (⌊q⌋ : ℚ) + 1 / 2 ≤ q) := by
  unfold roundNearestEven
  split_ifs with h1 h2 h3
  · exact Or.inl rfl
  · exact Or.inr ⟨rfl, by linarith⟩
  · exact Or.inl rfl
  · exact Or.inr ⟨rfl, by linarith⟩

theorem roundNearestEven_abs_le (q : ℚ) (N : ℤ) (h : |q| ≤ N) : |roundNearestEven q| ≤ N := by
  have hlo : (-N : ℚ) ≤ q := by linarith [neg_abs_le q]
  have hhi : q ≤ N := le_trans (le_abs_self q) h
  have hfl : -N ≤ ⌊q⌋ := by
    apply Int.le_floor.mpr
    push_cast
    exact hlo
  have hfh : ⌊q⌋ ≤ N := by
    have : (⌊q⌋ : ℚ) ≤ N := le_trans (Int.floor_le q) hhi
    exact_mod_cast this
  rcases roundNearestEven_cases q with h1 | ⟨h1, h2⟩
  · rw [h1]; exact abs_le.mpr ⟨hfl, hfh⟩
  · rw [h1]
    have : (⌊q⌋ : ℚ) + 1 / 2 ≤ N := le_trans h2 hhi
    have h3 : (⌊q⌋ : ℚ) < N := by linarith
    have h4 : ⌊q⌋ < N := by exact_mod_cast h3
    exact abs_le.mpr ⟨by omega, by omega⟩

theorem f32Exp_ge (q : ℚ) : -149 ≤ f32Exp q := le_max_right _ _

theorem f32Exp_le_of_abs_lt {q : ℚ} {e : ℤ} (hq0 : q ≠ 0) (he : -149 ≤ e)
    (hq : |q| < 2 ^ (e + 24)) : f32Exp q ≤ e := by
  have hpos : 0 < |q| := abs_pos.mpr hq0
  have h := (Int.lt_zpow_iff_log_lt (b := 2) (by norm_num) hpos).mp (by exact_mod_cast hq)
  unfold f32Exp
  exact max_le (by omega) he

theorem abs_lt_zpow_f32Exp (q : ℚ) : |q| < 2 ^ (f32Exp q + 24) := by
  have h := Int.lt_zpow_succ_log_self (b := 2) (by norm_num) |q|
  have hle : Int.log 2 |q| + 1 ≤ f32Exp q + 24 := by
    have : Int.log 2 |q| - 23 ≤ f32Exp q := le_max_left _ _
    omega
  have hmono : (2 : ℚ) ^ (Int.log 2 |q| + 1) ≤ 2 ^ (f32Exp q + 24) :=
    zpow_le_zpow_right₀ (by norm_num) hle
  exact lt_of_lt_of_le (by exact_mod_cast h) hmono

theorem f32Round_of_div_int (q : ℚ) (n : ℤ) (h : q / 2 ^ f32Exp q = n) : f32Round q = q := by
  unfold f32Round
  rw [h, roundNearestEven_intCast, ← h]
  field_simp

theorem f32Round_zero : f32Round 0 = 0 := by
  simp [f32Round, roundNearestEven]

theorem f32Round_of_lt (m e : ℤ) (hm : |m| < 2 ^ 24) (he : -149 ≤ e) :
    f32Round (m * 2 ^ e) = m * 2 ^ e := by
  by_cases hm0 : m = 0
  · subst hm0; simp [f32Round_zero]
  have hq0 : (m : ℚ) * 2 ^ e ≠ 0 := by
    have : (m : ℚ) ≠ 0 := by exact_mod_cast hm0
    positivity
  have hlt : |(m : ℚ) * 2 ^ e| < 2 ^ (e + 24) := by
    rw [abs_mul, abs_of_pos (by positivity : (0 : ℚ) < 2 ^ e), zpow_add₀ (by norm_num), mul_comm]
    have : |(m : ℚ)| < 2 ^ (24 : ℤ) := by
      have h1 : ((|m| : ℤ) : ℚ) < ((2 ^ 24 : ℤ) : ℚ) := by exact_mod_cast hm
      rw [Int.cast_abs] at h1
      norm_num at h1 ⊢
      exact h1
    exact mul_lt_mul_of_pos_left this (by positivity)
  have hc := f32Exp_le_of_abs_lt hq0 he hlt
  obtain ⟨d, hd⟩ := Int.eq_ofNat_of_zero_le (sub_nonneg.mpr hc)
  apply f32Round_of_div_int _ (m * 2 ^ d)
  have he2 : e = f32Exp ((m : ℚ) * 2 ^ e) + d := by omega
  generalize f32Exp ((m : ℚ) * 2 ^ e) = c at he2
  subst he2
  rw [zpow_add₀ (by norm_num)]
  push_cast
  field_simp
  ring

/-- A rational `m * 2 ^ e` with `|m| ≤ 2 ^ 24` and `e ≥ -149` is a binary32 value: rounding
leaves it unchanged. -/
theorem f32Round_of_repr (m e : ℤ) (hm : |m| ≤ 2 ^ 24) (he : -149 ≤ e) :
    f32Round (m * 2 ^ e) = m * 2 ^ e := by
  rcases lt_or_eq_of_le hm with h | h
  · exact f32Round_of_lt m e h he
  · have hdiv : m = 2 * (m / 2) := by
      rcases abs_eq (by norm_num : (0 : ℤ) ≤ 2 ^ 24) |>.mp h with h1 | h1 <;> omega
    have hm2 : |m / 2| < 2 ^ 24 := by
      rcases abs_eq (by norm_num : (0 : ℤ) ≤ 2 ^ 24) |>.mp h with h1 | h1 <;>
        · rw [h1]; norm_num
    have key : (m : ℚ) * 2 ^ e = ((m / 2 : ℤ) : ℚ) * 2 ^ (e + 1) := by
      rw [zpow_add₀ (by norm_num)]
      conv_lhs => rw [hdiv]
      push_cast
      ring
    rw [key]
    exact f32Round_of_lt (m / 2) (e + 1) hm2 (by omega)

/-- Every result of `f32Round` is a binary32 value: an integer of at most 24 bits times
the unit in the last place. -/
theorem f32Round_repr (q : ℚ) :
    ∃ m : ℤ, |m| ≤ 2 ^ 24 ∧ f32Round q = m * 2 ^ f32Exp q := by
  refine ⟨roundNearestEven (q / 2 ^ f32Exp q), ?_, rfl⟩
  apply roundNearestEven_abs_le
  rw [abs_div, abs_of_pos (by positivity : (0 : ℚ) < 2 ^ f32Exp q), div_le_iff₀ (by positivity)]
  have h := abs_lt_zpow_f32Exp q
  rw [zpow_add₀ (by norm_num), mul_comm] at h
  push_cast
  have : ((2 : ℚ) ^ (24 : ℤ)) = 2 ^ 24 := by norm_num
  rw [this] at h
  exact le_of_lt h

theorem f32Round_idem (q : ℚ) : f32Round (f32Round q) = f32Round q := by
  obtain ⟨m, hm, h⟩ := f32Round_repr q
  rw [h]
  exact f32Round_of_repr m _ hm (f32Exp_ge q)

theorem f32Exp_of_binade (q : ℚ) (e : ℤ) (h1 : 2 ^ e ≤ |q|) (h2 : |q| < 2 ^ (e + 1)) :
    f32Exp q = max (e - 23) (-149) := by
  have hpos : 0 < |q| := lt_of_lt_of_le (by positivity) h1
  have ha := (Int.zpow_le_iff_le_log (b := 2) (by norm_num) hpos).mp (by exact_mod_cast h1)
  have hb := (Int.lt_zpow_iff_log_lt (b := 2) (by norm_num) hpos).mp (by exact_mod_cast h2)
  have : Int.log 2 |q| = e := by omega
  unfold f32Exp
  rw [this]

theorem roundNearestEven_tie (n : ℤ) :
    roundNearestEven (n + 1 / 2) = if n % 2 = 0 then n else n + 1 := by
  have hfl : ⌊(n : ℚ) + 1 / 2⌋ = n := by
    rw [Int.floor_eq_iff]
    constructor <;> linarith
  unfold roundNearestEven
  rw [hfl]
  have h1 : ¬ ((n : ℚ) + 1 / 2 - n < 1 / 2) := by norm_num
  have h2 : ¬ ((1 : ℚ) / 2 < (n : ℚ) + 1 / 2 - n) := by norm_num
  rw [if_neg h1, if_neg h2]

theorem f32OfInt_exact (v : ℤ) (h : |v| ≤ 2 ^ 24) : f32OfInt v = v := by
  have := f32Round_of_repr v 0 h (by norm_num)
  simpa [f32OfInt] using this

theorem f32Exp_intCast_ge (v : ℤ) : -23 ≤ f32Exp v := by
  unfold f32Exp
  by_cases hv : v = 0
  · subst hv; simp
  · have h1 : (1 : ℚ) ≤ |(v : ℚ)| := by
      have : (1 : ℤ) ≤ |v| := Int.one_le_abs hv
      exact_mod_cast this
    have hpos : 0 < |(v : ℚ)| := lt_of_lt_of_le one_pos h1
    have := (Int.zpow_le_iff_le_log (b := 2) (x := 0) (by norm_num) hpos).mp (by simpa using h1)
    exact le_max_of_le_left (by omega)

/-- Division of a converted `int` by `32768.0f` or `-32768.0f` is exact. -/
theorem f32Div_ofInt_scale (v : ℤ) (s : ℤ) (hs : s = 1 ∨ s = -1) :
    f32Div (f32OfInt v) (s * 32768) = f32OfInt v / (s * 32768) := by
  obtain ⟨m, hm, h⟩ := f32Round_repr (v : ℚ)
  have hc := f32Exp_intCast_ge v
  unfold f32Div f32OfInt
  rw [h]
  have key : (m : ℚ) * 2 ^ f32Exp (v : ℚ) / (s * 32768) = ((s * m : ℤ) : ℚ) * 2 ^ (f32Exp (v : ℚ) - 15) := by
    rw [zpow_sub₀ (by norm_num)]
    rcases hs with rfl | rfl <;>
      · push_cast
        norm_num
        ring
  rw [key]
  apply f32Round_of_repr
  · rcases hs with rfl | rfl <;> simpa using hm
  · omega

theorem abs32_eq_abs (v : ℤ) (hlo : -2 ^ 31 < v) (hhi : v < 2 ^ 31) : abs32 v = |v| := by
  unfold abs32 wrap32
  split_ifs with h
  · rw [abs_of_neg h]; omega
  · rw [abs_of_nonneg (not_lt.mp h)]

theorem f32OfInt_16777217 : f32OfInt 16777217 = 16777216 := by
  unfold f32OfInt f32Round
  rw [f32Exp_of_binade _ 24 (by norm_num [abs_of_pos]) (by norm_num [abs_of_pos])]
  have h : ((16777217 : ℤ) : ℚ) / 2 ^ (max (24 - 23) (-149) : ℤ) = (8388608 : ℤ) + 1 / 2 := by
    norm_num
  rw [h, roundNearestEven_tie]
  norm_num

/-! ## The translator on single events -/

theorem parse_rx_eq (b : ButtonBinding) (k : KeyboardController) (v : ℤ) :
    k.parse b ⟨EV_ABS, ABS_RX, v⟩ =
      ⟨{ k with m_stick_x := if abs32 v > 8000 then f32OfInt v / 32768 else 0 }, []⟩ := by
  have h : f32Div (f32OfInt v) 32768 = f32OfInt v / 32768 := by
    have h := f32Div_ofInt_scale v 1 (Or.inl rfl)
    simpa using h
  have c1 : ¬ (ABS_RX = ABS_HAT0X) := by decide
  have c2 : ¬ (ABS_RX = ABS_HAT0Y) := by decide
  unfold KeyboardController.parse
  rw [if_pos rfl, if_neg c1, if_neg c2, if_pos rfl, h]
  split_ifs <;> rfl

theorem parse_ry_eq (b : ButtonBinding) (k : KeyboardController) (v : ℤ) :
    k.parse b ⟨EV_ABS, ABS_RY, v⟩ =
      ⟨{ k with m_stick_y := if abs32 v > 8000 then f32OfInt v / (-32768) else 0 }, []⟩ := by
  have h : f32Div (f32OfInt v) (-32768) = f32OfInt v / (-32768) := by
    have h := f32Div_ofInt_scale v (-1) (Or.inr rfl)
    simpa using h
  have c1 : ¬ (ABS_RY = ABS_HAT0X) := by decide
  have c2 : ¬ (ABS_RY = ABS_HAT0Y) := by decide
  have c3 : ¬ (ABS_RY = ABS_RX) := by decide
  unfold KeyboardController.parse
  rw [if_pos rfl, if_neg c1, if_neg c2, if_neg c3, if_pos rfl, h]
  split_ifs <;> rfl

/-- C1 (amended). For every signed 32-bit value `v` other than the least one, `parse` on
an ABS event with code RX sets `m_stick_x` to `v` rounded to binary32 and divided by
32768 when `|v| > 8000`, which is exactly `v / 32768` whenever `|v| ≤ 2 ^ 24`, and to
exactly `0` when `|v| ≤ 8000`. -/
theorem parse_rx_stick_x (b : ButtonBinding) (k : KeyboardController) (v : ℤ)
    (hlo : -2 ^ 31 < v) (hhi : v < 2 ^ 31) :
    (8000 < |v| → (k.parse b ⟨EV_ABS, ABS_RX, v⟩).ctrl.m_stick_x = f32Round v / 32768) ∧
    (8000 < |v| → |v| ≤ 2 ^ 24 →
      (k.parse b ⟨EV_ABS, ABS_RX, v⟩).ctrl.m_stick_x = (v : ℚ) / 32768) ∧
    (|v| ≤ 8000 → (k.parse b ⟨EV_ABS, ABS_RX, v⟩).ctrl.m_stick_x = 0) := by
  rw [parse_rx_eq, abs32_eq_abs v hlo hhi]
  refine ⟨fun h => ?_, fun h h24 => ?_, fun h => ?_⟩
  · simp [h, f32OfInt]
  · simp [h, f32OfInt_exact v h24]
  · simp [not_lt.mpr h]

/-- Witness of C1 at `v = 9000`, `v = 8000` and `v = -8000`, from the constructed state. -/
theorem parse_rx_stick_x_witness :
    (KeyboardController.constructed.parse sampleBinding ⟨EV_ABS, ABS_RX, 9000⟩).ctrl.m_stick_x
        = 9000 / 32768 ∧
    (KeyboardController.constructed.parse sampleBinding ⟨EV_ABS, ABS_RX, 8000⟩).ctrl.m_stick_x
        = 0 ∧
    (KeyboardController.constructed.parse sampleBinding ⟨EV_ABS, ABS_RX, -8000⟩).ctrl.m_stick_x
        = 0 := by
  refine ⟨?_, ?_, ?_⟩
  · have h := (parse_rx_stick_x sampleBinding KeyboardController.constructed 9000
      (by norm_num) (by norm_num)).2.1 (by norm_num) (by norm_num)
    simpa using h
  · exact (parse_rx_stick_x sampleBinding KeyboardController.constructed 8000
      (by norm_num) (by norm_num)).2.2 (by norm_num)
  · exact (parse_rx_stick_x sampleBinding KeyboardController.constructed (-8000)
      (by norm_num) (by norm_num)).2.2 (by norm_num)

/-- Counterexample to C1 as stated: at `v = 16777217` the stored value is `512`, not
`16777217 / 32768`, and at the least `int` it is `0` although the magnitude exceeds the
deadzone. -/
theorem parse_rx_stick_x_counterexample :
    (KeyboardController.constructed.parse sampleBinding
        ⟨EV_ABS, ABS_RX, 16777217⟩).ctrl.m_stick_x = 512 ∧
    (512 : ℚ) ≠ 16777217 / 32768 ∧
    (KeyboardController.constructed.parse sampleBinding
        ⟨EV_ABS, ABS_RX, -2147483648⟩).ctrl.m_stick_x = 0 ∧
    (8000 : ℤ) < |(-2147483648 : ℤ)| := by
  refine ⟨?_, by norm_num, ?_, by norm_num⟩
  · rw [parse_rx_eq]
    have h : abs32 16777217 > 8000 := by decide
    simp only [h, if_true, f32OfInt_16777217]
    norm_num
  · rw [parse_rx_eq]
    have h : ¬ abs32 (-2147483648) > 8000 := by decide
    simp only [h, if_false]

/-- C2 (amended). For every signed 32-bit value `v` other than the least one, `parse` on
an ABS event with code RY sets `m_stick_y` to `v` rounded to binary32 and divided by
`-32768` when `|v| > 8000`, which is exactly `v / -32768` whenever `|v| ≤ 2 ^ 24`, and to
exactly `0` when `|v| ≤ 8000`. -/
theorem parse_ry_stick_y (b : ButtonBinding) (k : KeyboardController) (v : ℤ)
    (hlo : -2 ^ 31 < v) (hhi : v < 2 ^ 31) :
    (8000 < |v| → (k.parse b ⟨EV_ABS, ABS_RY, v⟩).ctrl.m_stick_y = f32Round v / (-32768)) ∧
    (8000 < |v| → |v| ≤ 2 ^ 24 →
      (k.parse b ⟨EV_ABS, ABS_RY, v⟩).ctrl.m_stick_y = (v : ℚ) / (-32768)) ∧
    (|v| ≤ 8000 → (k.parse b ⟨EV_ABS, ABS_RY, v⟩).ctrl.m_stick_y = 0) := by
  rw [parse_ry_eq, abs32_eq_abs v hlo hhi]
  refine ⟨fun h => ?_, fun h h24 => ?_, fun h => ?_⟩
  · simp [h, f32OfInt]
  · simp [h, f32OfInt_exact v h24]
  · simp [not_lt.mpr h]

/-- Witness of C2 at `v = 16000` and `v = 8000`, from the constructed state. -/
theorem parse_ry_stick_y_witness :
    (KeyboardController.constructed.parse sampleBinding ⟨EV_ABS, ABS_RY, 16000⟩).ctrl.m_stick_y
        = 16000 / (-32768) ∧
    (16000 : ℚ) / (-32768) = -(48828125 / 100000000) ∧
    (KeyboardController.constructed.parse sampleBinding ⟨EV_ABS, ABS_RY, 8000⟩).ctrl.m_stick_y
        = 0 := by
  refine ⟨?_, by norm_num, ?_⟩
  · have h := (parse_ry_stick_y sampleBinding KeyboardController.constructed 16000
      (by norm_num) (by norm_num)).2.1 (by norm_num) (by norm_num)
    simpa using h
  · exact (parse_ry_stick_y sampleBinding KeyboardController.constructed 8000
      (by norm_num) (by norm_num)).2.2 (by norm_num)

/-- Counterexample to C2 as stated: at `v = 16777217` the stored value is `-512`, not
`16777217 / -32768`, and at the least `int` it is `0` although the magnitude exceeds the
deadzone. -/
theorem parse_ry_stick_y_counterexample :
    (KeyboardController.constructed.parse sampleBinding
        ⟨EV_ABS, ABS_RY, 16777217⟩).ctrl.m_stick_y = -512 ∧
    (-512 : ℚ) ≠ 16777217 / (-32768) ∧
    (KeyboardController.constructed.parse sampleBinding
        ⟨EV_ABS, ABS_RY, -2147483648⟩).ctrl.m_stick_y = 0 ∧
    (8000 : ℤ) < |(-2147483648 : ℤ)| := by
  refine ⟨?_, by norm_num, ?_, by norm_num⟩
  · rw [parse_ry_eq]
    have h : abs32 16777217 > 8000 := by decide
    simp only [h, if_true, f32OfInt_16777217]
    norm_num
  · rw [parse_ry_eq]
    have h : ¬ abs32 (-2147483648) > 8000 := by decide
    simp only [h, if_false]

/-! ## The axis state stays normalised for 16-bit stick values -/

theorem parse_frame (b : ButtonBinding) (k : KeyboardController) (ev : input_event)
    (h : ¬ (ev.type = EV_ABS ∧ (ev.code = ABS_RX ∨ ev.code = ABS_RY))) :
    (k.parse b ev).ctrl = k := by
  unfold KeyboardController.parse
  by_cases ht : ev.type = EV_ABS
  · have hx : ¬ ev.code = ABS_RX := fun hc => h ⟨ht, Or.inl hc⟩
    have hy : ¬ ev.code = ABS_RY := fun hc => h ⟨ht, Or.inr hc⟩
    rw [if_pos ht, if_neg hx, if_neg hy]
    split_ifs <;> rfl
  · rw [if_neg ht]
    split_ifs <;> rfl

theorem scaled_in_unit (v : ℤ) (h : |v| ≤ 32768) :
    -1 ≤ (v : ℚ) / 32768 ∧ (v : ℚ) / 32768 ≤ 1 ∧
    -1 ≤ (v : ℚ) / (-32768) ∧ (v : ℚ) / (-32768) ≤ 1 := by
  have h1 := abs_le.mp h
  have hlo : (-32768 : ℚ) ≤ v := by exact_mod_cast h1.1
  have hhi : (v : ℚ) ≤ 32768 := by exact_mod_cast h1.2
  refine ⟨?_, ?_, ?_, ?_⟩
  · rw [le_div_iff₀ (by norm_num)]; linarith
  · rw [div_le_iff₀ (by norm_num)]; linarith
  · rw [le_div_iff_of_neg (by norm_num)]; linarith
  · rw [div_le_iff_of_neg (by norm_num)]; linarith

theorem parse_normalised (b : ButtonBinding) (k : KeyboardController) (ev : input_event)
    (hk : k.normalised)
    (hv : ev.type = EV_ABS → (ev.code = ABS_RX ∨ ev.code = ABS_RY) → |ev.value| ≤ 32768) :
    (k.parse b ev).ctrl.normalised := by
  by_cases h : ev.type = EV_ABS ∧ (ev.code = ABS_RX ∨ ev.code = ABS_RY)
  · obtain ⟨ht, hc⟩ := h
    have hr := hv ht hc
    have h24 : |ev.value| ≤ 2 ^ 24 := le_trans hr (by norm_num)
    have hs := scaled_in_unit ev.value hr
    obtain ⟨t, c, v⟩ := ev
    simp only at ht hc hr h24 hs
    subst ht
    unfold KeyboardController.normalised at hk ⊢
    rcases hc with rfl | rfl
    · rw [parse_rx_eq, f32OfInt_exact v h24]
      split_ifs
      · exact ⟨hs.1, hs.2.1, hk.2.2.1, hk.2.2.2⟩
      · exact ⟨by norm_num, by norm_num, hk.2.2.1, hk.2.2.2⟩
    · rw [parse_ry_eq, f32OfInt_exact v h24]
      split_ifs
      · exact ⟨hk.1, hk.2.1, hs.2.2.1, hs.2.2.2⟩
      · exact ⟨hk.1, hk.2.1, by norm_num, by norm_num⟩
  · rw [parse_frame b k ev h]; exact hk

theorem parseAll_normalised (b : ButtonBinding) (evs : List input_event) :
    ∀ k : KeyboardController, k.normalised →
    (∀ ev ∈ evs, ev.type = EV_ABS → (ev.code = ABS_RX ∨ ev.code = ABS_RY) →
      |ev.value| ≤ 32768) →
    (KeyboardController.parseAll b k evs).ctrl.normalised := by
  induction evs with
  | nil => intro k hk _; exact hk
  | cons ev evs ih =>
    intro k hk h
    simp only [KeyboardController.parseAll]
    apply ih
    · exact parse_normalised b k ev hk (h ev (List.mem_cons_self _ _))
    · intro e he; exact h e (List.mem_cons_of_mem _ he)

/-- C3 (amended). After `parse` has processed any finite sequence of raw events from the
constructed state, in which every ABS event with code RX or RY carries a value of
magnitude at most 32768 and all other events are arbitrary, both components of the axis
state lie in `[-1, 1]`. -/
theorem parseAll_axis_in_unit_interval (b : ButtonBinding) (evs : List input_event)
    (h : ∀ ev ∈ evs, ev.type = EV_ABS → (ev.code = ABS_RX ∨ ev.code = ABS_RY) →
      |ev.value| ≤ 32768) :
    -1 ≤ (KeyboardController.parseAll b KeyboardController.constructed evs).ctrl.m_stick_x ∧
    (KeyboardController.parseAll b KeyboardController.constructed evs).ctrl.m_stick_x ≤ 1 ∧
    -1 ≤ (KeyboardController.parseAll b KeyboardController.constructed evs).ctrl.m_stick_y ∧
    (KeyboardController.parseAll b KeyboardController.constructed evs).ctrl.m_stick_y ≤ 1 :=
  parseAll_normalised b evs KeyboardController.constructed
    (by simp [KeyboardController.normalised, KeyboardController.constructed]) h

/-- Witness of C3 on the events RX = 32767, RY = -32768, a key event and an event of
another type with a large value. -/
theorem parseAll_axis_in_unit_interval_witness :
    -1 ≤ (KeyboardController.parseAll sampleBinding KeyboardController.constructed
      [⟨EV_ABS, ABS_RX, 32767⟩, ⟨EV_ABS, ABS_RY, -32768⟩, ⟨EV_KEY, 304, 70000⟩,
        ⟨2, 0, 100000⟩]).ctrl.m_stick_x ∧
    (KeyboardController.parseAll sampleBinding KeyboardController.constructed
      [⟨EV_ABS, ABS_RX, 32767⟩, ⟨EV_ABS, ABS_RY, -32768⟩, ⟨EV_KEY, 304, 70000⟩,
        ⟨2, 0, 100000⟩]).ctrl.m_stick_x ≤ 1 ∧
    -1 ≤ (KeyboardController.parseAll sampleBinding KeyboardController.constructed
      [⟨EV_ABS, ABS_RX, 32767⟩, ⟨EV_ABS, ABS_RY, -32768⟩, ⟨EV_KEY, 304, 70000⟩,
        ⟨2, 0, 100000⟩]).ctrl.m_stick_y ∧
    (KeyboardController.parseAll sampleBinding KeyboardController.constructed
      [⟨EV_ABS, ABS_RX, 32767⟩, ⟨EV_ABS, ABS_RY, -32768⟩, ⟨EV_KEY, 304, 70000⟩,
        ⟨2, 0, 100000⟩]).ctrl.m_stick_y ≤ 1 :=
  parseAll_axis_in_unit_interval sampleBinding _ (by
    intro ev hev
    simp only [List.mem_cons, List.mem_singleton, List.not_mem_nil, or_false] at hev
    rcases hev with rfl | rfl | rfl | rfl <;> simp [EV_ABS, EV_KEY, ABS_RX, ABS_RY, abs_le])

/-- Counterexample to C3 as stated: the single event ABS RX with the 32-bit value 65536
leaves `m_stick_x = 2`, outside `[-1, 1]`. -/
theorem parseAll_axis_in_unit_interval_counterexample :
    (KeyboardController.parseAll sampleBinding KeyboardController.constructed
      [⟨EV_ABS, ABS_RX, 65536⟩]).ctrl.m_stick_x = 2 ∧
    ¬ ((KeyboardController.parseAll sampleBinding KeyboardController.constructed
      [⟨EV_ABS, ABS_RX, 65536⟩]).ctrl.m_stick_x ≤ 1) := by
  have h : (KeyboardController.parseAll sampleBinding KeyboardController.constructed
      [⟨EV_ABS, ABS_RX, 65536⟩]).ctrl.m_stick_x = 2 := by
    simp only [KeyboardController.parseAll]
    rw [parse_rx_eq, f32OfInt_exact 65536 (by norm_num)]
    have h : abs32 65536 > 8000 := by decide
    simp only [h, if_true]
    norm_num
  exact ⟨h, by rw [h]; norm_num⟩

/-! ## Discrete actions -/

/-- C4. On an ABS event, HAT0X with value -1 issues exactly `cursor_left`, HAT0X with
value +1 exactly `cursor_right`, HAT0Y with value -1 exactly `cursor_up`, HAT0Y with
value +1 exactly `cursor_down`: one keyboard call and nothing else, the axis state
unchanged. -/
theorem parse_hat_cursor_step (b : ButtonBinding) (k : KeyboardController) :
    k.parse b ⟨EV_ABS, ABS_HAT0X, -1⟩ = ⟨k, [KeyboardCall.cursor_left]⟩ ∧
    k.parse b ⟨EV_ABS, ABS_HAT0X, 1⟩ = ⟨k, [KeyboardCall.cursor_right]⟩ ∧
    k.parse b ⟨EV_ABS, ABS_HAT0Y, -1⟩ = ⟨k, [KeyboardCall.cursor_up]⟩ ∧
    k.parse b ⟨EV_ABS, ABS_HAT0Y, 1⟩ = ⟨k, [KeyboardCall.cursor_down]⟩ := by
  refine ⟨?_, ?_, ?_, ?_⟩ <;>
    simp [KeyboardController.parse, EV_ABS, ABS_HAT0X, ABS_HAT0Y]

/-- C5. For every ABS event with code HAT0X or HAT0Y whose value is neither -1 nor +1,
`parse` issues no keyboard call and leaves the axis state unchanged. -/
theorem parse_hat_other_value (b : ButtonBinding) (k : KeyboardController) (v : ℤ)
    (hneg : v ≠ -1) (hpos : v ≠ 1) :
    k.parse b ⟨EV_ABS, ABS_HAT0X, v⟩ = ⟨k, []⟩ ∧
    k.parse b ⟨EV_ABS, ABS_HAT0Y, v⟩ = ⟨k, []⟩ := by
  constructor <;>
    simp [KeyboardController.parse, EV_ABS, ABS_HAT0X, ABS_HAT0Y, hneg, hpos]

/-- Witness of C5 at the values 0, -2 and 5. -/
theorem parse_hat_other_value_witness :
    KeyboardController.constructed.parse sampleBinding ⟨EV_ABS, ABS_HAT0X, 0⟩
      = ⟨KeyboardController.constructed, []⟩ ∧
    KeyboardController.constructed.parse sampleBinding ⟨EV_ABS, ABS_HAT0X, -2⟩
      = ⟨KeyboardController.constructed, []⟩ ∧
    KeyboardController.constructed.parse sampleBinding ⟨EV_ABS, ABS_HAT0Y, 5⟩
      = ⟨KeyboardController.constructed, []⟩ :=
  ⟨(parse_hat_other_value sampleBinding _ 0 (by decide) (by decide)).1,
   (parse_hat_other_value sampleBinding _ (-2) (by decide) (by decide)).1,
   (parse_hat_other_value sampleBinding _ 5 (by decide) (by decide)).2⟩

/-- C6. For every value `v`, `parse` on a KEY event with code `kSendButton` issues
exactly one keyboard call, `send_key v` with the raw value unchanged (also for `v = 0`),
and leaves the axis state unchanged. -/
theorem parse_send_button (b : ButtonBinding) (k : KeyboardController) (v : ℤ) :
    k.parse b ⟨EV_KEY, b.kSendButton, v⟩ = ⟨k, [KeyboardCall.send_key v]⟩ := by
  simp [KeyboardController.parse, EV_ABS, EV_KEY]

/-- The labels of the `switch`: the send button differs from every other label, and the
reserved labels differ from the hide button. -/
theorem ButtonBinding.separate (b : ButtonBinding) :
    (b.kSendButton ≠ b.kHoldButton ∧ b.kSendButton ≠ b.kCancelHoldButton ∧
      b.kSendButton ≠ b.kShiftButton ∧ b.kSendButton ≠ b.kCtrlButton ∧
      b.kSendButton ≠ b.kBackspaceButton ∧ b.kSendButton ≠ b.kHideButton) ∧
    (b.kHoldButton ≠ b.kHideButton ∧ b.kCancelHoldButton ≠ b.kHideButton ∧
      b.kShiftButton ≠ b.kHideButton ∧ b.kCtrlButton ≠ b.kHideButton ∧
      b.kBackspaceButton ≠ b.kHideButton) := by
  have h := b.distinct
  simp only [List.nodup_cons, List.mem_cons, List.mem_singleton, not_or, List.not_mem_nil,
    not_false_eq_true, and_true, List.nodup_nil] at h
  obtain ⟨hs, ⟨-, -, -, -, h2⟩, ⟨-, -, -, h3⟩, ⟨-, -, h4⟩, ⟨-, h5⟩, h6⟩ := h
  exact ⟨hs, h2, h3, h4, h5, h6⟩

theorem parse_hide_eq (b : ButtonBinding) (k : KeyboardController) (v : ℤ) :
    k.parse b ⟨EV_KEY, b.kHideButton, v⟩ =
      ⟨k, [if v ≠ 0 then KeyboardCall.show_ else KeyboardCall.hide]⟩ := by
  obtain ⟨⟨-, -, -, -, -, h1⟩, h2, h3, h4, h5, h6⟩ := b.separate
  unfold KeyboardController.parse
  have ht : ¬ ((EV_KEY : ℕ) = EV_ABS) := by decide
  rw [if_neg ht, if_pos rfl, if_neg (Ne.symm h1), if_neg (Ne.symm h2), if_neg (Ne.symm h3),
    if_neg (Ne.symm h4), if_neg (Ne.symm h5), if_neg (Ne.symm h6), if_pos rfl]
  split_ifs <;> rfl

/-- C7. On a KEY event with code `kHideButton`, `parse` issues exactly one `hide` call
(and no `show`) when the value is 0 and exactly one `show` call (and no `hide`) when the
value is any non-zero integer; the calls are the same from every controller state and the
axis state is left unchanged. -/
theorem parse_hide_button (b : ButtonBinding) (k : KeyboardController) (v : ℤ)
    (hv : v ≠ 0) :
    k.parse b ⟨EV_KEY, b.kHideButton, 0⟩ = ⟨k, [KeyboardCall.hide]⟩ ∧
    k.parse b ⟨EV_KEY, b.kHideButton, v⟩ = ⟨k, [KeyboardCall.show_]⟩ ∧
    ∀ (k2 : KeyboardController) (w : ℤ),
      (k2.parse b ⟨EV_KEY, b.kHideButton, w⟩).calls
        = (k.parse b ⟨EV_KEY, b.kHideButton, w⟩).calls := by
  refine ⟨?_, ?_, ?_⟩
  · rw [parse_hide_eq]; simp
  · rw [parse_hide_eq]; simp [hv]
  · intro k2 w; rw [parse_hide_eq, parse_hide_eq]

/-- Witness of C7 at the negative value `-3`. -/
theorem parse_hide_button_witness :
    KeyboardController.constructed.parse sampleBinding ⟨EV_KEY, 311, 0⟩
      = ⟨KeyboardController.constructed, [KeyboardCall.hide]⟩ ∧
    KeyboardController.constructed.parse sampleBinding ⟨EV_KEY, 311, -3⟩
      = ⟨KeyboardController.constructed, [KeyboardCall.show_]⟩ :=
  ⟨(parse_hide_button sampleBinding KeyboardController.constructed (-3) (by decide)).1,
   (parse_hide_button sampleBinding KeyboardController.constructed (-3) (by decide)).2.1⟩

/-- C8. `parse` issues no keyboard call and leaves the axis state unchanged, for any
value, on a KEY event whose code is one of the reserved bindings (hold, cancel-hold,
shift, ctrl, backspace) or is not in the button table, on an ABS event whose code is none
of HAT0X, HAT0Y, RX, RY, and on every event whose type is neither ABS nor KEY. -/
theorem parse_noop (b : ButtonBinding) (k : KeyboardController) (ev : input_event)
    (h : (ev.type = EV_KEY ∧
          (ev.code ∈ [b.kHoldButton, b.kCancelHoldButton, b.kShiftButton, b.kCtrlButton,
              b.kBackspaceButton] ∨
            ev.code ∉ [b.kSendButton, b.kHoldButton, b.kCancelHoldButton, b.kShiftButton,
              b.kCtrlButton, b.kBackspaceButton, b.kHideButton])) ∨
         (ev.type = EV_ABS ∧ ev.code ∉ [ABS_HAT0X, ABS_HAT0Y, ABS_RX, ABS_RY]) ∨
         (ev.type ≠ EV_ABS ∧ ev.type ≠ EV_KEY)) :
    k.parse b ev = ⟨k, []⟩ := by
  obtain ⟨⟨s1, s2, s3, s4, s5, -⟩, d2, d3, d4, d5, d6⟩ := b.separate
  obtain ⟨t, c, v⟩ := ev
  simp only [List.mem_cons, List.mem_singleton, List.not_mem_nil, or_false, not_or] at h
  unfold KeyboardController.parse
  rcases h with ⟨ht, hc⟩ | ⟨ht, h1, h2, h3, h4⟩ | ⟨ht1, ht2⟩
  · have hne : ¬ ((EV_KEY : ℕ) = EV_ABS) := by decide
    have ht2 : t = EV_KEY := ht
    subst ht2
    have hsend : ¬ c = b.kSendButton := by
      rcases hc with (rfl | rfl | rfl | rfl | rfl) | hc
      · exact Ne.symm s1
      · exact Ne.symm s2
      · exact Ne.symm s3
      · exact Ne.symm s4
      · exact Ne.symm s5
      · exact hc.1
    have hhide : ¬ c = b.kHideButton := by
      rcases hc with (rfl | rfl | rfl | rfl | rfl) | hc
      · exact d2
      · exact d3
      · exact d4
      · exact d5
      · exact d6
      · exact hc.2.2.2.2.2.2
    rw [if_neg hne, if_pos rfl, if_neg hsend]
    split_ifs <;> rfl
  · have ht2 : t = EV_ABS := ht
    subst ht2
    rw [if_pos rfl, if_neg h1, if_neg h2, if_neg h3, if_neg h4]
  · rw [if_neg ht1, if_neg ht2]

/-- Witness of C8 at a reserved button, an unbound button, another ABS axis and an event
of another type. -/
theorem parse_noop_witness :
    KeyboardController.constructed.parse sampleBinding ⟨EV_KEY, 307, 1⟩
      = ⟨KeyboardController.constructed, []⟩ ∧
    KeyboardController.constructed.parse sampleBinding ⟨EV_KEY, 999, 1⟩
      = ⟨KeyboardController.constructed, []⟩ ∧
    KeyboardController.constructed.parse sampleBinding ⟨EV_ABS, 0, 20000⟩
      = ⟨KeyboardController.constructed, []⟩ ∧
    KeyboardController.constructed.parse sampleBinding ⟨0, 0, 0⟩
      = ⟨KeyboardController.constructed, []⟩ :=
  ⟨parse_noop sampleBinding _ ⟨EV_KEY, 307, 1⟩ (by decide),
   parse_noop sampleBinding _ ⟨EV_KEY, 999, 1⟩ (by decide),
   parse_noop sampleBinding _ ⟨EV_ABS, 0, 20000⟩ (by decide),
   parse_noop sampleBinding _ ⟨0, 0, 0⟩ (by decide)⟩

/-! ## The integrator -/

theorem truncToZero_abs_le (q : ℚ) (N : ℤ) (h : |q| ≤ N) : |truncToZero q| ≤ N := by
  have hlo : (-N : ℚ) ≤ q := by linarith [neg_abs_le q]
  have hhi : q ≤ N := le_trans (le_abs_self q) h
  unfold truncToZero
  split_ifs with h0
  · have h1 : 0 ≤ ⌊q⌋ := Int.floor_nonneg.mpr h0
    have h2 : ⌊q⌋ ≤ N := by
      have : (⌊q⌋ : ℚ) ≤ N := le_trans (Int.floor_le q) hhi
      exact_mod_cast this
    exact abs_le.mpr ⟨by omega, h2⟩
  · have h1 : ⌈q⌉ ≤ 0 := Int.ceil_le.mpr (by push_cast; linarith)
    have h2 : -N ≤ ⌈q⌉ := by
      have : ((-N : ℤ) : ℚ) ≤ ⌈q⌉ := by
        push_cast
        exact le_trans hlo (Int.le_ceil q)
      exact_mod_cast this
    exact abs_le.mpr ⟨h2, by omega⟩

theorem truncToZero_intCast (n : ℤ) : truncToZero (n : ℚ) = n := by
  unfold truncToZero
  split_ifs <;> simp

theorem f32ToInt_of_abs_le (q : ℚ) (N : ℤ) (h : |q| ≤ N) (hN : N < 2 ^ 31) :
    f32ToInt q = truncToZero q := by
  have ht := abs_le.mp (truncToZero_abs_le q N h)
  unfold f32ToInt
  rw [if_pos ⟨by omega, by omega⟩]

/-- One axis of the integrator where binary32 is exact: a stick value `a / 32768` with
`|a| ≤ 32768` and a coordinate with `|x| ≤ 4056`. -/
theorem axis_step_exact (x a : ℤ) (ha : |a| ≤ 32768) (hx : |x| ≤ 4056) :
    f32ToInt (f32Add (f32OfInt x) (f32Mul ((a : ℚ) / 32768) 40))
      = truncToZero ((x : ℚ) + (a : ℚ) / 32768 * 40) := by
  have ha2 := abs_le.mp ha
  have hx2 := abs_le.mp hx
  have hmul : f32Mul ((a : ℚ) / 32768) 40 = (a : ℚ) / 32768 * 40 := by
    have key : (a : ℚ) / 32768 * 40 = ((5 * a : ℤ) : ℚ) * 2 ^ (-12 : ℤ) := by
      push_cast
      norm_num
      ring
    unfold f32Mul
    rw [key]
    exact f32Round_of_repr _ _ (abs_le.mpr ⟨by omega, by omega⟩) (by norm_num)
  have hof : f32OfInt x = x := f32OfInt_exact x (abs_le.mpr ⟨by omega, by omega⟩)
  have hadd : f32Add (x : ℚ) ((a : ℚ) / 32768 * 40) = (x : ℚ) + (a : ℚ) / 32768 * 40 := by
    have key : (x : ℚ) + (a : ℚ) / 32768 * 40
        = ((4096 * x + 5 * a : ℤ) : ℚ) * 2 ^ (-12 : ℤ) := by
      push_cast
      norm_num
      ring
    unfold f32Add
    rw [key]
    exact f32Round_of_repr _ _ (abs_le.mpr ⟨by omega, by omega⟩) (by norm_num)
  rw [hmul, hof, hadd]
  apply f32ToInt_of_abs_le _ 4096 _ (by norm_num)
  have h1 : |(x : ℚ)| ≤ 4056 := by exact_mod_cast hx
  have h2 : |(a : ℚ)| ≤ 32768 := by exact_mod_cast ha
  have h3 : |(a : ℚ) / 32768 * 40| ≤ 40 := by
    rw [abs_mul, abs_div]
    norm_num
    rw [div_le_iff₀ (by norm_num)]
    linarith
  calc |(x : ℚ) + (a : ℚ) / 32768 * 40| ≤ |(x : ℚ)| + |(a : ℚ) / 32768 * 40| := abs_add _ _
    _ ≤ 4056 + 40 := add_le_add h1 h3
    _ ≤ ((4096 : ℤ) : ℚ) := by norm_num

/-- One axis of the integrator with the stick centred: a coordinate with
`|x| ≤ 2 ^ 24` comes back unchanged. -/
theorem axis_step_centred (x : ℤ) (hx : |x| ≤ 2 ^ 24) :
    f32ToInt (f32Add (f32OfInt x) (f32Mul 0 40)) = x := by
  have hof : f32OfInt x = x := f32OfInt_exact x hx
  have hmul : f32Mul 0 40 = 0 := by simp [f32Mul, f32Round_zero]
  have hadd : f32Add (x : ℚ) 0 = x := by
    have := f32OfInt_exact x hx
    simpa [f32Add, f32OfInt] using this
  rw [hmul, hof, hadd, f32ToInt_of_abs_le _ (2 ^ 24) (by exact_mod_cast hx) (by norm_num),
    truncToZero_intCast]

/-- C9 (amended). For every axis state whose components are multiples of `1 / 32768` of
magnitude at most 1 and every position with `|x|, |y| ≤ 4056`, one call of `on_timeout`
reads the position and issues exactly one `move` call, whose arguments are
`x + sx * 40` and `y + sy * 40` truncated toward zero, leaves the axis state unchanged
and returns `true`. -/
theorem on_timeout_move (k : KeyboardController) (x y a c : ℤ)
    (hsx : k.m_stick_x = (a : ℚ) / 32768) (hsy : k.m_stick_y = (c : ℚ) / 32768)
    (ha : |a| ≤ 32768) (hc : |c| ≤ 32768) (hx : |x| ≤ 4056) (hy : |y| ≤ 4056) :
    k.on_timeout (x, y) =
      (⟨k, [KeyboardCall.get_position,
            KeyboardCall.move (truncToZero ((x : ℚ) + k.m_stick_x * 40))
              (truncToZero ((y : ℚ) + k.m_stick_y * 40))]⟩, true) := by
  unfold KeyboardController.on_timeout
  simp only [hsx, hsy, axis_step_exact x a ha hx, axis_step_exact y c hc hy]

/-- Witness of C9: axis state `(0.5, -0.25)` and position `(100, 100)` move to
`(120, 90)`. -/
theorem on_timeout_move_witness :
    KeyboardController.on_timeout ⟨1 / 2, -1 / 4⟩ (100, 100) =
      (⟨⟨1 / 2, -1 / 4⟩, [KeyboardCall.get_position, KeyboardCall.move 120 90]⟩, true) := by
  have h := on_timeout_move ⟨1 / 2, -1 / 4⟩ 100 100 16384 (-8192) (by norm_num) (by norm_num)
    (by norm_num) (by norm_num) (by norm_num) (by norm_num)
  have e1 : truncToZero (((100 : ℤ) : ℚ) + 1 / 2 * 40) = 120 := by
    have : ((100 : ℤ) : ℚ) + 1 / 2 * 40 = ((120 : ℤ) : ℚ) := by norm_num
    rw [this, truncToZero_intCast]
  have e2 : truncToZero (((100 : ℤ) : ℚ) + -1 / 4 * 40) = 90 := by
    have : ((100 : ℤ) : ℚ) + -1 / 4 * 40 = ((90 : ℤ) : ℚ) := by norm_num
    rw [this, truncToZero_intCast]
  rw [h]
  simp only [e1, e2]

theorem truncToZero_of_nonneg (q : ℚ) (n : ℤ) (h0 : 0 ≤ q) (h1 : (n : ℚ) ≤ q)
    (h2 : q < n + 1) : truncToZero q = n := by
  unfold truncToZero
  rw [if_pos h0]
  exact Int.floor_eq_iff.mpr ⟨h1, h2⟩

/-- Counterexample to C9 as stated: from axis state `(9000 / 32768, 0)` at position
`(0, 0)` the move goes to `(10, 0)` although `0 + 9000 / 32768 * 40` is `5625 / 512`; and
from `(9011 / 32768, 0)` at `(5000, 0)` it goes to `(5011, 0)` although the exact sum
`5000 + 9011 / 32768 * 40` is below `5011`. -/
theorem on_timeout_move_counterexample :
    KeyboardController.on_timeout ⟨9000 / 32768, 0⟩ (0, 0) =
      (⟨⟨9000 / 32768, 0⟩, [KeyboardCall.get_position, KeyboardCall.move 10 0]⟩, true) ∧
    ((0 : ℤ) : ℚ) + 9000 / 32768 * 40 ≠ ((10 : ℤ) : ℚ) ∧
    KeyboardController.on_timeout ⟨9011 / 32768, 0⟩ (5000, 0) =
      (⟨⟨9011 / 32768, 0⟩, [KeyboardCall.get_position, KeyboardCall.move 5011 0]⟩, true) ∧
    ((5000 : ℤ) : ℚ) + 9011 / 32768 * 40 < ((5011 : ℤ) : ℚ) := by
  have hy0 : f32ToInt (f32Add (f32OfInt 0) (f32Mul 0 40)) = 0 :=
    axis_step_centred 0 (by norm_num)
  refine ⟨?_, by norm_num, ?_, by norm_num⟩
  · have hx := axis_step_exact 0 9000 (by norm_num) (by norm_num)
    have ht : truncToZero (((0 : ℤ) : ℚ) + ((9000 : ℤ) : ℚ) / 32768 * 40) = 10 :=
      truncToZero_of_nonneg _ 10 (by norm_num) (by norm_num) (by norm_num)
    have e : ((9000 : ℤ) : ℚ) = 9000 := by norm_num
    rw [ht, e] at hx
    unfold KeyboardController.on_timeout
    simp only [hx, hy0]
  · have hmul : f32Mul (9011 / 32768) 40 = 45055 / 4096 := by
      have key : (9011 : ℚ) / 32768 * 40 = ((45055 : ℤ) : ℚ) * 2 ^ (-12 : ℤ) := by norm_num
      unfold f32Mul
      rw [key, f32Round_of_repr _ _ (by norm_num) (by norm_num)]
      norm_num
    have hof : f32OfInt 5000 = 5000 := by
      have := f32OfInt_exact 5000 (by norm_num)
      simpa using this
    have hadd : f32Add 5000 (45055 / 4096) = 5011 := by
      unfold f32Add f32Round
      rw [f32Exp_of_binade _ 12 (by norm_num [abs_of_pos]) (by norm_num [abs_of_pos])]
      have h : ((5000 : ℚ) + 45055 / 4096) / 2 ^ (max (12 - 23) (-149) : ℤ)
          = (10262527 : ℤ) + 1 / 2 := by norm_num
      rw [h, roundNearestEven_tie]
      norm_num
    have hto : f32ToInt 5011 = 5011 := by
      rw [f32ToInt_of_abs_le 5011 5011 (by norm_num) (by norm_num)]
      exact_mod_cast truncToZero_intCast 5011
    unfold KeyboardController.on_timeout
    simp only [hmul, hof, hadd, hto, hy0]

/-- C10 (amended). With the axis state `(0, 0)`, `on_timeout` still issues exactly one
`move` call for every integer position, and for every position with
`|x|, |y| ≤ 2 ^ 24` that call is a no-op move: its arguments equal the position read. -/
theorem on_timeout_centred (x y : ℤ) :
    (∃ x2 y2 : ℤ, (KeyboardController.on_timeout ⟨0, 0⟩ (x, y)).1.calls
        = [KeyboardCall.get_position, KeyboardCall.move x2 y2]) ∧
    (|x| ≤ 2 ^ 24 → |y| ≤ 2 ^ 24 →
      KeyboardController.on_timeout ⟨0, 0⟩ (x, y) =
        (⟨⟨0, 0⟩, [KeyboardCall.get_position, KeyboardCall.move x y]⟩, true)) := by
  refine ⟨⟨_, _, rfl⟩, fun hx hy => ?_⟩
  unfold KeyboardController.on_timeout
  simp only [axis_step_centred x hx, axis_step_centred y hy]

/-- Witness of C10 at position `(1920, -7)`. -/
theorem on_timeout_centred_witness :
    KeyboardController.on_timeout ⟨0, 0⟩ (1920, -7) =
      (⟨⟨0, 0⟩, [KeyboardCall.get_position, KeyboardCall.move 1920 (-7)]⟩, true) :=
  (on_timeout_centred 1920 (-7)).2 (by norm_num) (by norm_num)

/-- Counterexample to C10 as stated: with axis state `(0, 0)` at position
`(16777217, 0)` the move goes to `(16777216, 0)`, not to the position read. -/
theorem on_timeout_centred_counterexample :
    KeyboardController.on_timeout ⟨0, 0⟩ (16777217, 0) =
      (⟨⟨0, 0⟩, [KeyboardCall.get_position, KeyboardCall.move 16777216 0]⟩, true) := by
  have hy0 : f32ToInt (f32Add (f32OfInt 0) (f32Mul 0 40)) = 0 :=
    axis_step_centred 0 (by norm_num)
  have hmul : f32Mul 0 40 = 0 := by simp [f32Mul, f32Round_zero]
  have hadd : f32Add 16777216 0 = 16777216 := by
    have := f32OfInt_exact 16777216 (by norm_num)
    simpa [f32Add, f32OfInt] using this
  have hto : f32ToInt 16777216 = 16777216 := by
    rw [f32ToInt_of_abs_le 16777216 16777216 (by norm_num) (by norm_num)]
    exact_mod_cast truncToZero_intCast 16777216
  have hx : f32ToInt (f32Add (f32OfInt 16777217) (f32Mul 0 40)) = 16777216 := by
    rw [f32OfInt_16777217, hmul, hadd, hto]
  unfold KeyboardController.on_timeout
  simp only [hx, hy0]

/-! ## The event reader -/

theorem foldParse_step (b : ButtonBinding) (evs : List input_event) (acc : Outcome) :
    evs.foldl (fun acc ev =>
        (⟨(acc.ctrl.parse b ev).ctrl, acc.calls ++ (acc.ctrl.parse b ev).calls⟩ : Outcome)) acc
      = ⟨(KeyboardController.parseAll b acc.ctrl evs).ctrl,
          acc.calls ++ (KeyboardController.parseAll b acc.ctrl evs).calls⟩ := by
  induction evs generalizing acc with
  | nil => simp [KeyboardController.parseAll]
  | cons ev evs ih =>
    rw [List.foldl_cons, ih]
    simp [KeyboardController.parseAll, List.append_assoc]

theorem parseAll_eq_foldParse (b : ButtonBinding) (k : KeyboardController)
    (evs : List input_event) : KeyboardController.parseAll b k evs = foldParse b k evs := by
  unfold foldParse
  rw [foldParse_step]
  simp

theorem parseAll_append (b : ButtonBinding) (k : KeyboardController)
    (xs ys : List input_event) :
    KeyboardController.parseAll b k (xs ++ ys) =
      ⟨(KeyboardController.parseAll b (KeyboardController.parseAll b k xs).ctrl ys).ctrl,
        (KeyboardController.parseAll b k xs).calls ++
          (KeyboardController.parseAll b (KeyboardController.parseAll b k xs).ctrl ys).calls⟩ := by
  induction xs generalizing k with
  | nil => simp [KeyboardController.parseAll]
  | cons x xs ih =>
    rw [List.cons_append]
    simp only [KeyboardController.parseAll]
    rw [ih]
    simp only [List.append_assoc]

theorem parseBuffer_eq (b : ButtonBinding) (ev : List input_event) (n : ℕ) :
    ∀ (i : ℕ) (k : KeyboardController), i + n ≤ ev.length →
      KeyboardController.parseBuffer b ev n i k
        = KeyboardController.parseAll b k ((ev.drop i).take n) := by
  induction n with
  | zero => intro i k _; simp [KeyboardController.parseBuffer, KeyboardController.parseAll]
  | succ n ih =>
    intro i k h
    have hi : i < ev.length := by omega
    have hd : ev.drop i = ev.getD i ⟨0, 0, 0⟩ :: ev.drop (i + 1) := by
      rw [List.getD_eq_getElem _ _ hi]
      exact List.drop_eq_getElem_cons hi
    rw [hd, List.take_succ_cons]
    simp only [KeyboardController.parseBuffer, KeyboardController.parseAll]
    rw [ih (i + 1) _ (by omega)]

theorem on_read_data_stop (size : ℕ) (b : ButtonBinding) (k : KeyboardController)
    (stop : ReadResult) (rest : List ReadResult) (hstop : stop.rd ≤ 0) :
    k.on_read_data size b (stop :: rest) = some (⟨k, []⟩, true) := by
  unfold KeyboardController.on_read_data
  rw [if_neg (not_lt.mpr hstop)]

theorem on_read_data_batch (size : ℕ) (b : ButtonBinding) (k : KeyboardController)
    (r : ReadResult) (rest : List ReadResult) (hr : 0 < r.rd)
    (hlen : r.rd.toNat / size ≤ r.ev.length) :
    KeyboardController.on_read_data size b k (r :: rest) =
      (KeyboardController.on_read_data size b
          (KeyboardController.parseAll b k (r.ev.take (r.rd.toNat / size))).ctrl rest).map
        (fun res => (⟨res.1.ctrl,
          (KeyboardController.parseAll b k (r.ev.take (r.rd.toNat / size))).calls
            ++ res.1.calls⟩, res.2)) := by
  have hb := parseBuffer_eq b r.ev (r.rd.toNat / size) 0 k (by omega)
  rw [List.drop_zero] at hb
  rw [KeyboardController.on_read_data, if_pos hr, hb]
  dsimp only
  generalize KeyboardController.on_read_data size b
      (KeyboardController.parseAll b k (r.ev.take (r.rd.toNat / size))).ctrl rest = x
  rcases x with _ | ⟨o2, ret⟩ <;> rfl

/-- The events one read hands to `parse`: the first `rd / size` records of the array. -/
theorem on_read_data_drain (size : ℕ) (b : ButtonBinding) (pre : List ReadResult) :
    ∀ (k : KeyboardController) (stop : ReadResult) (post : List ReadResult),
      (∀ r ∈ pre, 0 < r.rd ∧ r.rd.toNat / size ≤ r.ev.length) → stop.rd ≤ 0 →
      KeyboardController.on_read_data size b k (pre ++ stop :: post) =
        some (KeyboardController.parseAll b k
          ((pre.map (fun r => r.ev.take (r.rd.toNat / size))).flatten), true) := by
  induction pre with
  | nil =>
    intro k stop post _ hstop
    simp [on_read_data_stop size b k stop post hstop, KeyboardController.parseAll]
  | cons r pre ih =>
    intro k stop post h hstop
    obtain ⟨hr, hlen⟩ := h r (List.mem_cons_self _ _)
    rw [List.cons_append, on_read_data_batch size b k r _ hr hlen,
      ih _ stop post (fun r2 h2 => h r2 (List.mem_cons_of_mem _ h2)) hstop]
    simp only [Option.map_some', List.map_cons, List.flatten_cons, parseAll_append]

/-- C11. For every list of `N` raw events delivered by one successful read (followed by
the read that ends the loop), `on_read_data` hands exactly these events to `parse`, once
each and in list order: the calls issued and the final axis state are those of folding
`parse` from left to right over the list. -/
theorem on_read_data_one_read (size : ℕ) (b : ButtonBinding) (k : KeyboardController)
    (evs stale : List input_event) (stop : ReadResult) (rest : List ReadResult)
    (hsize : 0 < size) (hstop : stop.rd ≤ 0) :
    KeyboardController.on_read_data size b k
        (⟨(size : ℤ) * evs.length, evs ++ stale⟩ :: stop :: rest)
      = some (foldParse b k evs, true) := by
  rw [← parseAll_eq_foldParse]
  rcases Nat.eq_zero_or_pos evs.length with h0 | hpos
  · have hnil : evs = [] := List.length_eq_zero.mp h0
    subst hnil
    rw [on_read_data_stop size b k _ _ (by simp)]
    simp [KeyboardController.parseAll]
  · have hq : ((size : ℤ) * evs.length).toNat / size = evs.length := by
      have : ((size : ℤ) * evs.length).toNat = size * evs.length := by
        rw [← Nat.cast_mul, Int.toNat_natCast]
      rw [this, Nat.mul_div_cancel_left _ hsize]
    have h := on_read_data_drain size b [⟨(size : ℤ) * evs.length, evs ++ stale⟩] k stop rest
      (by
        intro r hr
        rw [List.mem_singleton] at hr
        subst hr
        refine ⟨by positivity, ?_⟩
        simp only [hq, List.length_append]
        omega)
      hstop
    simp only [List.singleton_append, List.map_cons, List.map_nil, hq, List.flatten_cons,
      List.flatten_nil, List.append_nil, List.take_left'] at h
    rw [h]

/-- Witness of C11: two consecutive events HAT0X = -1 in one read give two `cursor_left`
calls. -/
theorem on_read_data_one_read_witness :
    KeyboardController.on_read_data 24 sampleBinding KeyboardController.constructed
        [⟨48, [⟨EV_ABS, ABS_HAT0X, -1⟩, ⟨EV_ABS, ABS_HAT0X, -1⟩]⟩, ⟨-1, []⟩]
      = some (⟨KeyboardController.constructed,
          [KeyboardCall.cursor_left, KeyboardCall.cursor_left]⟩, true) := by
  have h := on_read_data_one_read 24 sampleBinding KeyboardController.constructed
    [⟨EV_ABS, ABS_HAT0X, -1⟩, ⟨EV_ABS, ABS_HAT0X, -1⟩] [] ⟨-1, []⟩ [] (by decide) (by decide)
  have hf : foldParse sampleBinding KeyboardController.constructed
      [⟨EV_ABS, ABS_HAT0X, -1⟩, ⟨EV_ABS, ABS_HAT0X, -1⟩]
      = ⟨KeyboardController.constructed,
          [KeyboardCall.cursor_left, KeyboardCall.cursor_left]⟩ := by
    simp [foldParse, KeyboardController.parse, EV_ABS, ABS_HAT0X]
  rw [hf] at h
  simpa using h

theorem stick_9000 : f32OfInt 9000 / 32768 = (9000 : ℚ) / 32768 := by
  rw [f32OfInt_exact 9000 (by norm_num)]
  norm_num

theorem parseAll_scenario (b : ButtonBinding) :
    KeyboardController.parseAll b KeyboardController.constructed
        [⟨EV_ABS, ABS_HAT0X, -1⟩, ⟨EV_ABS, ABS_RX, 9000⟩] =
      ⟨⟨9000 / 32768, 0⟩, [KeyboardCall.cursor_left]⟩ ∧
    KeyboardController.parseAll b KeyboardController.constructed
        [⟨EV_ABS, ABS_HAT0X, -1⟩, ⟨EV_ABS, ABS_RX, 9000⟩, ⟨EV_KEY, b.kSendButton, 5⟩] =
      ⟨⟨9000 / 32768, 0⟩, [KeyboardCall.cursor_left, KeyboardCall.send_key 5]⟩ := by
  have h1 : KeyboardController.constructed.parse b ⟨EV_ABS, ABS_HAT0X, -1⟩
      = ⟨KeyboardController.constructed, [KeyboardCall.cursor_left]⟩ := by
    simp [KeyboardController.parse, EV_ABS, ABS_HAT0X]
  have h2 : KeyboardController.constructed.parse b ⟨EV_ABS, ABS_RX, 9000⟩
      = ⟨⟨9000 / 32768, 0⟩, []⟩ := by
    rw [parse_rx_eq]
    have h : abs32 9000 > 8000 := by decide
    simp only [h, if_true, stick_9000]
    rfl
  have h3 : KeyboardController.parse b ⟨9000 / 32768, 0⟩ ⟨EV_KEY, b.kSendButton, 5⟩
      = ⟨⟨9000 / 32768, 0⟩, [KeyboardCall.send_key 5]⟩ := by
    simp [KeyboardController.parse, EV_ABS, EV_KEY]
  constructor
  · simp only [KeyboardController.parseAll, h1, h2, List.append_nil, List.nil_append]
  · simp only [KeyboardController.parseAll, h1, h2, h3, List.append_nil, List.nil_append,
      List.singleton_append]

/-- C12. From the constructed state, when one read yields the three events
ABS HAT0X = -1, ABS RX = 9000, KEY SendButton value 5, `on_read_data` issues
`cursor_left` and then `send_key 5`; after the first two events `m_stick_x` is
`9000 / 32768` with only `cursor_left` issued, and at the end `m_stick_x` is
`9000 / 32768` and `m_stick_y` is still `0`. -/
theorem on_read_data_scenario (size : ℕ) (b : ButtonBinding) (stale : List input_event)
    (stop : ReadResult) (rest : List ReadResult) (hsize : 0 < size) (hstop : stop.rd ≤ 0) :
    KeyboardController.on_read_data size b KeyboardController.constructed
        (⟨(size : ℤ) * 3,
          [⟨EV_ABS, ABS_HAT0X, -1⟩, ⟨EV_ABS, ABS_RX, 9000⟩, ⟨EV_KEY, b.kSendButton, 5⟩]
            ++ stale⟩ :: stop :: rest)
      = some (⟨⟨9000 / 32768, 0⟩, [KeyboardCall.cursor_left, KeyboardCall.send_key 5]⟩, true) ∧
    KeyboardController.on_read_data size b KeyboardController.constructed
        (⟨(size : ℤ) * 2, [⟨EV_ABS, ABS_HAT0X, -1⟩, ⟨EV_ABS, ABS_RX, 9000⟩] ++ stale⟩
          :: stop :: rest)
      = some (⟨⟨9000 / 32768, 0⟩, [KeyboardCall.cursor_left]⟩, true) := by
  have hq3 : ((size : ℤ) * 3).toNat / size = 3 := by
    have : ((size : ℤ) * 3).toNat = size * 3 := by
      rw [show ((size : ℤ) * 3) = ((size * 3 : ℕ) : ℤ) by push_cast; ring, Int.toNat_natCast]
    rw [this, Nat.mul_div_cancel_left _ hsize]
  have hq2 : ((size : ℤ) * 2).toNat / size = 2 := by
    have : ((size : ℤ) * 2).toNat = size * 2 := by
      rw [show ((size : ℤ) * 2) = ((size * 2 : ℕ) : ℤ) by push_cast; ring, Int.toNat_natCast]
    rw [this, Nat.mul_div_cancel_left _ hsize]
  have hpos3 : (0 : ℤ) < (size : ℤ) * 3 := by positivity
  have hpos2 : (0 : ℤ) < (size : ℤ) * 2 := by positivity
  obtain ⟨s2, s3⟩ := parseAll_scenario b
  constructor
  · have h := on_read_data_drain size b
      [⟨(size : ℤ) * 3,
        [⟨EV_ABS, ABS_HAT0X, -1⟩, ⟨EV_ABS, ABS_RX, 9000⟩, ⟨EV_KEY, b.kSendButton, 5⟩]
          ++ stale⟩]
      KeyboardController.constructed stop rest
      (by
        intro r hr
        rw [List.mem_singleton] at hr
        subst hr
        refine ⟨hpos3, ?_⟩
        simp only [hq3, List.length_append, List.length_cons, List.length_nil]
        omega)
      hstop
    simp only [List.singleton_append, List.map_cons, List.map_nil, hq3, List.flatten_cons,
      List.flatten_nil, List.append_nil] at h
    rw [h]
    simp only [List.cons_append, List.nil_append, List.take_succ_cons, List.take_zero, s3]
  · have h := on_read_data_drain size b
      [⟨(size : ℤ) * 2, [⟨EV_ABS, ABS_HAT0X, -1⟩, ⟨EV_ABS, ABS_RX, 9000⟩] ++ stale⟩]
      KeyboardController.constructed stop rest
      (by
        intro r hr
        rw [List.mem_singleton] at hr
        subst hr
        refine ⟨hpos2, ?_⟩
        simp only [hq2, List.length_append, List.length_cons, List.length_nil]
        omega)
      hstop
    simp only [List.singleton_append, List.map_cons, List.map_nil, hq2, List.flatten_cons,
      List.flatten_nil, List.append_nil] at h
    rw [h]
    simp only [List.cons_append, List.nil_append, List.take_succ_cons, List.take_zero, s2]

/-- Witness of C12 with 24-byte records and the sample button table. -/
theorem on_read_data_scenario_witness :
    KeyboardController.on_read_data 24 sampleBinding KeyboardController.constructed
        [⟨72, [⟨EV_ABS, ABS_HAT0X, -1⟩, ⟨EV_ABS, ABS_RX, 9000⟩, ⟨EV_KEY, 304, 5⟩]⟩, ⟨-1, []⟩]
      = some (⟨⟨9000 / 32768, 0⟩, [KeyboardCall.cursor_left, KeyboardCall.send_key 5]⟩,
          true) := by
  have h := (on_read_data_scenario 24 sampleBinding [] ⟨-1, []⟩ [] (by decide)
    (by decide)).1
  simpa [sampleBinding] using h

/-! ## Frame conditions, return values and the constructor -/

/-- C14. `m_stick_x` is changed only by an ABS event with code RX and `m_stick_y` only by
an ABS event with code RY: every other event handed to `parse` and every call of
`on_timeout` leaves the axis state unchanged, an RX event leaves `m_stick_y` unchanged,
an RY event leaves `m_stick_x` unchanged, and RX and RY events issue no keyboard call. -/
theorem axis_state_frame (b : ButtonBinding) (k : KeyboardController) :
    (∀ ev : input_event, ¬ (ev.type = EV_ABS ∧ (ev.code = ABS_RX ∨ ev.code = ABS_RY)) →
      (k.parse b ev).ctrl = k) ∧
    (∀ pos : ℤ × ℤ, (k.on_timeout pos).1.ctrl = k) ∧
    (∀ v : ℤ, (k.parse b ⟨EV_ABS, ABS_RX, v⟩).ctrl.m_stick_y = k.m_stick_y ∧
      (k.parse b ⟨EV_ABS, ABS_RX, v⟩).calls = []) ∧
    (∀ v : ℤ, (k.parse b ⟨EV_ABS, ABS_RY, v⟩).ctrl.m_stick_x = k.m_stick_x ∧
      (k.parse b ⟨EV_ABS, ABS_RY, v⟩).calls = []) := by
  refine ⟨fun ev h => parse_frame b k ev h, fun pos => rfl, fun v => ?_, fun v => ?_⟩
  · rw [parse_rx_eq]; exact ⟨rfl, rfl⟩
  · rw [parse_ry_eq]; exact ⟨rfl, rfl⟩

/-- Witness of C14: a HAT event and a key event leave the axis state `(1/2, -1/4)` as it
is. -/
theorem axis_state_frame_witness :
    (KeyboardController.parse sampleBinding ⟨1 / 2, -1 / 4⟩ ⟨EV_ABS, ABS_HAT0X, 1⟩).ctrl
      = ⟨1 / 2, -1 / 4⟩ ∧
    (KeyboardController.parse sampleBinding ⟨1 / 2, -1 / 4⟩ ⟨EV_KEY, 304, 1⟩).ctrl
      = ⟨1 / 2, -1 / 4⟩ :=
  ⟨(axis_state_frame sampleBinding ⟨1 / 2, -1 / 4⟩).1 ⟨EV_ABS, ABS_HAT0X, 1⟩ (by decide),
   (axis_state_frame sampleBinding ⟨1 / 2, -1 / 4⟩).1 ⟨EV_KEY, 304, 1⟩ (by decide)⟩

theorem on_read_data_returns (size : ℕ) (b : ButtonBinding) (reads : List ReadResult) :
    ∀ k : KeyboardController, (∃ r ∈ reads, r.rd ≤ 0) →
      ∃ o : Outcome, KeyboardController.on_read_data size b k reads = some (o, true) := by
  induction reads with
  | nil => intro k h; obtain ⟨r, hr, -⟩ := h; cases hr
  | cons r reads ih =>
    intro k h
    by_cases hr : 0 < r.rd
    · have h2 : ∃ r2 ∈ reads, r2.rd ≤ 0 := by
        obtain ⟨r2, hmem, hle⟩ := h
        rcases List.mem_cons.mp hmem with rfl | hmem
        · omega
        · exact ⟨r2, hmem, hle⟩
      obtain ⟨o, ho⟩ := ih (KeyboardController.parseBuffer b r.ev (r.rd.toNat / size) 0 k).ctrl h2
      rw [KeyboardController.on_read_data, if_pos hr]
      dsimp only
      rw [ho]
      exact ⟨_, rfl⟩
    · rw [KeyboardController.on_read_data, if_neg hr]
      exact ⟨_, rfl⟩

theorem on_read_data_ret_true (size : ℕ) (b : ButtonBinding) (reads : List ReadResult) :
    ∀ (k : KeyboardController) (res : Outcome × Bool),
      KeyboardController.on_read_data size b k reads = some res → res.2 = true := by
  induction reads with
  | nil => intro k res h; simp [KeyboardController.on_read_data] at h
  | cons r reads ih =>
    intro k res h
    by_cases hr : 0 < r.rd
    · rw [KeyboardController.on_read_data, if_pos hr] at h
      dsimp only at h
      generalize hx : KeyboardController.on_read_data size b
        (KeyboardController.parseBuffer b r.ev (r.rd.toNat / size) 0 k).ctrl reads = x at h
      rcases x with _ | ⟨o2, ret⟩
      · simp at h
      · have := ih _ _ hx
        simp only [Option.some.injEq] at h
        rw [← h]
        exact this
    · rw [KeyboardController.on_read_data, if_neg hr] at h
      simp only [Option.some.injEq] at h
      rw [← h]

/-- C15. Both callbacks report "keep" to the event loop: whenever `on_read_data` returns
it returns `TRUE`, it does return for every sequence of read results that contains one
that is not positive (would-block, error or end of stream), and `on_timeout` returns
`true` for every axis state and position. -/
theorem callbacks_keep (size : ℕ) (b : ButtonBinding) (k : KeyboardController)
    (reads : List ReadResult) (pos : ℤ × ℤ) :
    (∀ res : Outcome × Bool,
      KeyboardController.on_read_data size b k reads = some res → res.2 = true) ∧
    ((∃ r ∈ reads, r.rd ≤ 0) →
      ∃ o : Outcome, KeyboardController.on_read_data size b k reads = some (o, true)) ∧
    (k.on_timeout pos).2 = true :=
  ⟨on_read_data_ret_true size b reads k, on_read_data_returns size b reads k, rfl⟩

/-- Witness of C15: a read of data followed by a read that would block, and a read that
fails at once. -/
theorem callbacks_keep_witness :
    (∃ o : Outcome, KeyboardController.on_read_data 24 sampleBinding
      KeyboardController.constructed [⟨24, [⟨EV_ABS, ABS_HAT0X, 1⟩]⟩, ⟨-1, []⟩]
        = some (o, true)) ∧
    (∃ o : Outcome, KeyboardController.on_read_data 24 sampleBinding
      KeyboardController.constructed [⟨0, []⟩] = some (o, true)) :=
  ⟨(callbacks_keep 24 sampleBinding KeyboardController.constructed
      [⟨24, [⟨EV_ABS, ABS_HAT0X, 1⟩]⟩, ⟨-1, []⟩] (0, 0)).2.1
        ⟨⟨-1, []⟩, by simp, by decide⟩,
   (callbacks_keep 24 sampleBinding KeyboardController.constructed [⟨0, []⟩] (0, 0)).2.1
        ⟨⟨0, []⟩, by simp, by decide⟩⟩

/-- C16. When opening the device fails (`open` returns `-1`) the constructor throws an
error whose text is the device name followed by the system message, and has made no GLib
call: no watch and no timer is registered. When opening succeeds the constructed
controller has the axis state `(0, 0)`, and exactly one watch, on the new channel for
readable data, and exactly one timer, with period 25, are registered. -/
theorem ctor_outcome (device : String) (env : ConstructorEnv) :
    (env.open_result = -1 →
      KeyboardController.ctor device env
        = ([], Except.error (device ++ ": " ++ env.strerror_errno))) ∧
    (env.open_result ≠ -1 →
      ∃ c : Constructed, (KeyboardController.ctor device env).2 = Except.ok c ∧
        c.ctrl = ⟨0, 0⟩ ∧ c.m_fd = env.open_result ∧
        (KeyboardController.ctor device env).1.filter LoopCall.isWatch
          = [LoopCall.g_io_add_watch env.channel
              [GIOCondition.G_IO_IN, GIOCondition.G_IO_ERR, GIOCondition.G_IO_HUP]] ∧
        (KeyboardController.ctor device env).1.filter LoopCall.isTimer
          = [LoopCall.g_timeout_add 25]) := by
  constructor
  · intro h
    simp [KeyboardController.ctor, h]
  · intro h
    refine ⟨⟨KeyboardController.constructed, device, env.open_result, env.channel,
      env.timeout_id⟩, ?_, ?_, ?_, ?_, ?_⟩
    · simp only [KeyboardController.ctor, if_neg h]
    · rfl
    · rfl
    · simp only [KeyboardController.ctor, if_neg h]
      cases env.encoding_error <;> simp [LoopCall.isWatch]
    · simp only [KeyboardController.ctor, if_neg h]
      cases env.encoding_error <;> simp [LoopCall.isTimer]

/-- Witness of C16: a failing and a succeeding `open` of `/dev/input/event3`. -/
theorem ctor_outcome_witness :
    KeyboardController.ctor "/dev/input/event3" ⟨-1, "No such file or directory", 0, none, 0⟩
      = ([], Except.error "/dev/input/event3: No such file or directory") ∧
    (∃ c : Constructed,
      (KeyboardController.ctor "/dev/input/event3" ⟨5, "", 7, none, 3⟩).2 = Except.ok c ∧
        c.ctrl = ⟨0, 0⟩ ∧ c.m_fd = 5 ∧
        (KeyboardController.ctor "/dev/input/event3" ⟨5, "", 7, none, 3⟩).1.filter
            LoopCall.isWatch
          = [LoopCall.g_io_add_watch 7
              [GIOCondition.G_IO_IN, GIOCondition.G_IO_ERR, GIOCondition.G_IO_HUP]] ∧
        (KeyboardController.ctor "/dev/input/event3" ⟨5, "", 7, none, 3⟩).1.filter
            LoopCall.isTimer
          = [LoopCall.g_timeout_add 25]) :=
  ⟨(ctor_outcome "/dev/input/event3" ⟨-1, "No such file or directory", 0, none, 0⟩).1 rfl,
   (ctor_outcome "/dev/input/event3" ⟨5, "", 7, none, 3⟩).2 (by decide)⟩

/-- C17. For every sequence of read results in which the reads before the first one that
is not positive return at most `size * 128` bytes into the array of 128 records,
`on_read_data` hands to `parse` exactly the events of those reads, read after read in
stream order, and nothing of what follows; of a read that returned `rd` bytes exactly the
first `rd / size` records, at most 128, so a trailing partial record is dropped. -/
theorem on_read_data_drains (size : ℕ) (b : ButtonBinding) (k : KeyboardController)
    (pre : List ReadResult) (stop : ReadResult) (post : List ReadResult)
    (hsize : 0 < size)
    (hpre : ∀ r ∈ pre, 0 < r.rd ∧ r.rd ≤ (size : ℤ) * 128 ∧ r.ev.length = 128)
    (hstop : stop.rd ≤ 0) :
    KeyboardController.on_read_data size b k (pre ++ stop :: post) =
      some (KeyboardController.parseAll b k
        ((pre.map (fun r => r.ev.take (r.rd.toNat / size))).flatten), true) ∧
    ∀ r ∈ pre, (r.ev.take (r.rd.toNat / size)).length = r.rd.toNat / size ∧
      r.rd.toNat / size ≤ 128 := by
  have hq : ∀ r ∈ pre, r.rd.toNat / size ≤ 128 := by
    intro r hr
    obtain ⟨h1, h2, -⟩ := hpre r hr
    have h3 : r.rd.toNat ≤ size * 128 := by omega
    calc r.rd.toNat / size ≤ size * 128 / size := Nat.div_le_div_right h3
      _ = 128 := Nat.mul_div_cancel_left _ hsize
  constructor
  · apply on_read_data_drain size b pre k stop post _ hstop
    intro r hr
    exact ⟨(hpre r hr).1, by rw [(hpre r hr).2.2]; exact hq r hr⟩
  · intro r hr
    refine ⟨?_, hq r hr⟩
    rw [List.length_take, (hpre r hr).2.2]
    exact min_eq_left (hq r hr)

/-- Witness of C17 with 24-byte records: a read of 30 bytes hands its one complete record
to `parse` and drops the partial one, and the read after the failing read is not
looked at. -/
theorem on_read_data_drains_witness :
    KeyboardController.on_read_data 24 sampleBinding KeyboardController.constructed
        ([⟨30, ⟨EV_ABS, ABS_HAT0X, -1⟩ :: List.replicate 127 ⟨EV_ABS, ABS_HAT0X, 1⟩⟩]
          ++ ⟨-1, []⟩ :: [⟨24, [⟨EV_ABS, ABS_HAT0X, 1⟩]⟩])
      = some (⟨KeyboardController.constructed, [KeyboardCall.cursor_left]⟩, true) := by
  have h := (on_read_data_drains 24 sampleBinding KeyboardController.constructed
    [⟨30, ⟨EV_ABS, ABS_HAT0X, -1⟩ :: List.replicate 127 ⟨EV_ABS, ABS_HAT0X, 1⟩⟩]
    ⟨-1, []⟩ [⟨24, [⟨EV_ABS, ABS_HAT0X, 1⟩]⟩] (by decide)
    (by
      intro r hr
      rw [List.mem_singleton] at hr
      subst hr
      refine ⟨by decide, by decide, by simp⟩)
    (by decide)).1
  rw [h]
  have h30 : (30 : ℤ).toNat / 24 = 1 := by decide
  simp [h30, KeyboardController.parseAll, KeyboardController.parse, EV_ABS, ABS_HAT0X]

/-! ## Last writer wins -/

theorem parse_stick_x_of_not_rx (b : ButtonBinding) (k : KeyboardController)
    (ev : input_event) (h : ¬ (ev.type = EV_ABS ∧ ev.code = ABS_RX)) :
    (k.parse b ev).ctrl.m_stick_x = k.m_stick_x := by
  by_cases hy : ev.type = EV_ABS ∧ ev.code = ABS_RY
  · obtain ⟨t, c, v⟩ := ev
    obtain ⟨ht, hc⟩ := hy
    simp only at ht hc
    subst ht hc
    rw [parse_ry_eq]
  · rw [parse_frame b k ev (by tauto)]

theorem parse_stick_y_of_not_ry (b : ButtonBinding) (k : KeyboardController)
    (ev : input_event) (h : ¬ (ev.type = EV_ABS ∧ ev.code = ABS_RY)) :
    (k.parse b ev).ctrl.m_stick_y = k.m_stick_y := by
  by_cases hx : ev.type = EV_ABS ∧ ev.code = ABS_RX
  · obtain ⟨t, c, v⟩ := ev
    obtain ⟨ht, hc⟩ := hx
    simp only at ht hc
    subst ht hc
    rw [parse_rx_eq]
  · rw [parse_frame b k ev (by tauto)]

theorem parse_stick_x_of_rx (b : ButtonBinding) (k k2 : KeyboardController)
    (ev : input_event) (h : ev.type = EV_ABS ∧ ev.code = ABS_RX) :
    (k.parse b ev).ctrl.m_stick_x = (k2.parse b ev).ctrl.m_stick_x := by
  obtain ⟨t, c, v⟩ := ev
  obtain ⟨ht, hc⟩ := h
  simp only at ht hc
  subst ht hc
  rw [parse_rx_eq, parse_rx_eq]

theorem parse_stick_y_of_ry (b : ButtonBinding) (k k2 : KeyboardController)
    (ev : input_event) (h : ev.type = EV_ABS ∧ ev.code = ABS_RY) :
    (k.parse b ev).ctrl.m_stick_y = (k2.parse b ev).ctrl.m_stick_y := by
  obtain ⟨t, c, v⟩ := ev
  obtain ⟨ht, hc⟩ := h
  simp only at ht hc
  subst ht hc
  rw [parse_ry_eq, parse_ry_eq]

theorem parseAll_concat_ctrl (b : ButtonBinding) (k : KeyboardController)
    (evs : List input_event) (ev : input_event) :
    (KeyboardController.parseAll b k (evs ++ [ev])).ctrl
      = ((KeyboardController.parseAll b k evs).ctrl.parse b ev).ctrl := by
  rw [parseAll_append]
  simp [KeyboardController.parseAll]

theorem parseAll_stick_x (b : ButtonBinding) (k k2 : KeyboardController)
    (evs : List input_event) :
    (KeyboardController.parseAll b k evs).ctrl.m_stick_x =
      match (evs.filter (input_event.isAxis ABS_RX)).getLast? with
      | none => k.m_stick_x
      | some ev => (k2.parse b ev).ctrl.m_stick_x := by
  induction evs using List.reverseRecOn with
  | nil => simp [KeyboardController.parseAll]
  | append_singleton evs ev ih =>
    rw [parseAll_concat_ctrl, List.filter_append]
    by_cases h : ev.type = EV_ABS ∧ ev.code = ABS_RX
    · have hp : input_event.isAxis ABS_RX ev = true := by simp [input_event.isAxis, h]
      simp only [List.filter_cons, List.filter_nil, hp, if_true, List.getLast?_concat]
      exact parse_stick_x_of_rx b _ k2 ev h
    · have hp : input_event.isAxis ABS_RX ev = false := by simp [input_event.isAxis, h]
      rw [parse_stick_x_of_not_rx b _ ev h, ih]
      simp [hp]

theorem parseAll_stick_y (b : ButtonBinding) (k k2 : KeyboardController)
    (evs : List input_event) :
    (KeyboardController.parseAll b k evs).ctrl.m_stick_y =
      match (evs.filter (input_event.isAxis ABS_RY)).getLast? with
      | none => k.m_stick_y
      | some ev => (k2.parse b ev).ctrl.m_stick_y := by
  induction evs using List.reverseRecOn with
  | nil => simp [KeyboardController.parseAll]
  | append_singleton evs ev ih =>
    rw [parseAll_concat_ctrl, List.filter_append]
    by_cases h : ev.type = EV_ABS ∧ ev.code = ABS_RY
    · have hp : input_event.isAxis ABS_RY ev = true := by simp [input_event.isAxis, h]
      simp only [List.filter_cons, List.filter_nil, hp, if_true, List.getLast?_concat]
      exact parse_stick_y_of_ry b _ k2 ev h
    · have hp : input_event.isAxis ABS_RY ev = false := by simp [input_event.isAxis, h]
      rw [parse_stick_y_of_not_ry b _ ev h, ih]
      simp [hp]

/-- C18. Last writer wins: after `parse` has processed any finite event sequence from
the constructed state, `m_stick_x` is the value the last ABS RX event of the sequence
alone would produce from the constructed state (`0` if there is none), and `m_stick_y`
likewise for the last ABS RY event: no earlier event has any influence. -/
theorem last_writer_wins (b : ButtonBinding) (evs : List input_event) :
    (KeyboardController.parseAll b KeyboardController.constructed evs).ctrl.m_stick_x =
      (match (evs.filter (input_event.isAxis ABS_RX)).getLast? with
        | none => 0
        | some ev => (KeyboardController.constructed.parse b ev).ctrl.m_stick_x) ∧
    (KeyboardController.parseAll b KeyboardController.constructed evs).ctrl.m_stick_y =
      (match (evs.filter (input_event.isAxis ABS_RY)).getLast? with
        | none => 0
        | some ev => (KeyboardController.constructed.parse b ev).ctrl.m_stick_y) :=
  ⟨parseAll_stick_x b KeyboardController.constructed KeyboardController.constructed evs,
   parseAll_stick_y b KeyboardController.constructed KeyboardController.constructed evs⟩

/-! ## Rounding is monotone against binary32 values -/

theorem roundNearestEven_ge_of_int_le (q : ℚ) (N : ℤ) (h : (N : ℚ) ≤ q) :
    N ≤ roundNearestEven q := by
  have hfl : N ≤ ⌊q⌋ := Int.le_floor.mpr h
  rcases roundNearestEven_cases q with h1 | ⟨h1, -⟩ <;> omega

theorem roundNearestEven_le_of_le_int (q : ℚ) (N : ℤ) (h : q ≤ (N : ℚ)) :
    roundNearestEven q ≤ N := by
  have hfh : ⌊q⌋ ≤ N := by
    have : (⌊q⌋ : ℚ) ≤ N := le_trans (Int.floor_le q) h
    exact_mod_cast this
  rcases roundNearestEven_cases q with h1 | ⟨h1, h2⟩
  · omega
  · have h3 : (⌊q⌋ : ℚ) < N := by linarith
    have h4 : ⌊q⌋ < N := by exact_mod_cast h3
    omega

theorem roundNearestEven_abs_ge (q : ℚ) (N : ℤ) (h : (N : ℚ) ≤ |q|) :
    N ≤ |roundNearestEven q| := by
  rcases le_abs.mp h with h1 | h1
  · exact le_trans (roundNearestEven_ge_of_int_le q N h1) (le_abs_self _)
  · have h2 : q ≤ ((-N : ℤ) : ℚ) := by push_cast; linarith
    have h3 := roundNearestEven_le_of_le_int q (-N) h2
    have h4 := neg_abs_le (roundNearestEven q)
    omega

theorem f32Round_nonneg (q : ℚ) (h : 0 ≤ q) : 0 ≤ f32Round q := by
  unfold f32Round
  have h1 : (((0 : ℤ) : ℚ)) ≤ q / 2 ^ f32Exp q := by
    push_cast
    positivity
  have h2 := roundNearestEven_ge_of_int_le _ 0 h1
  have h3 : (0 : ℚ) ≤ (roundNearestEven (q / 2 ^ f32Exp q) : ℚ) := by exact_mod_cast h2
  positivity

theorem f32Round_nonpos (q : ℚ) (h : q ≤ 0) : f32Round q ≤ 0 := by
  unfold f32Round
  have h1 : q / 2 ^ f32Exp q ≤ (((0 : ℤ) : ℚ)) := by
    push_cast
    exact div_nonpos_of_nonpos_of_nonneg h (by positivity)
  have h2 := roundNearestEven_le_of_le_int _ 0 h1
  have h3 : (roundNearestEven (q / 2 ^ f32Exp q) : ℚ) ≤ 0 := by exact_mod_cast h2
  exact mul_nonpos_of_nonpos_of_nonneg h3 (by positivity)

theorem abs_f32Round (q : ℚ) :
    |f32Round q| = (|roundNearestEven (q / 2 ^ f32Exp q)| : ℤ) * 2 ^ f32Exp q := by
  unfold f32Round
  rw [abs_mul, abs_of_pos (by positivity : (0 : ℚ) < 2 ^ f32Exp q), Int.cast_abs]

theorem f32Exp_eq_of_gt {q : ℚ} {e : ℤ} (he : -149 ≤ e) (h : e < f32Exp q) :
    f32Exp q = Int.log 2 |q| - 23 := by
  unfold f32Exp at h ⊢
  rcases max_cases (Int.log 2 |q| - 23) (-149) with ⟨h1, -⟩ | ⟨h1, -⟩
  · exact h1
  · rw [h1] at h; omega

theorem zpow_split (c : ℤ) (d : ℕ) : (2 : ℚ) ^ (c + d) = 2 ^ d * 2 ^ c := by
  rw [zpow_add₀ (by norm_num), zpow_natCast, mul_comm]

/-- Rounding does not exceed a binary32 value that bounds the magnitude. -/
theorem abs_f32Round_le (q : ℚ) (m e : ℤ) (hm : |m| ≤ 2 ^ 24) (he : -149 ≤ e)
    (h : |q| ≤ (|m| : ℤ) * 2 ^ e) : |f32Round q| ≤ (|m| : ℤ) * 2 ^ e := by
  by_cases hq0 : q = 0
  · subst hq0
    rw [f32Round_zero, abs_zero]
    have : (0 : ℚ) ≤ ((|m| : ℤ) : ℚ) := by exact_mod_cast abs_nonneg m
    positivity
  have hpos : 0 < |q| := abs_pos.mpr hq0
  rw [abs_f32Round]
  rcases le_or_lt (f32Exp q) e with hc | hc
  · obtain ⟨d, hd⟩ := Int.eq_ofNat_of_zero_le (sub_nonneg.mpr hc)
    have he2 : e = f32Exp q + d := by omega
    generalize f32Exp q = c at he2 ⊢
    subst he2
    rw [zpow_split] at h ⊢
    have hr : |q / 2 ^ c| ≤ ((|m| * 2 ^ d : ℤ) : ℚ) := by
      rw [abs_div, abs_of_pos (by positivity : (0 : ℚ) < 2 ^ c), div_le_iff₀ (by positivity)]
      push_cast at h ⊢
      linarith
    have hn := roundNearestEven_abs_le _ _ hr
    have hn2 : ((|roundNearestEven (q / 2 ^ c)| : ℤ) : ℚ) ≤ ((|m| * 2 ^ d : ℤ) : ℚ) := by
      exact_mod_cast hn
    calc ((|roundNearestEven (q / 2 ^ c)| : ℤ) : ℚ) * 2 ^ c
        ≤ ((|m| * 2 ^ d : ℤ) : ℚ) * 2 ^ c := mul_le_mul_of_nonneg_right hn2 (by positivity)
      _ = ((|m| : ℤ) : ℚ) * (2 ^ d * 2 ^ c) := by push_cast; ring
  · have hceq := f32Exp_eq_of_gt he hc
    have hlog : (2 : ℚ) ^ Int.log 2 |q| ≤ |q| := by
      exact_mod_cast Int.zpow_log_le_self (b := 2) (by norm_num) hpos
    have hL : Int.log 2 |q| = f32Exp q + 23 := by omega
    rw [hL] at hlog
    generalize f32Exp q = c at hc hlog ⊢
    have hm2 : ((|m| : ℤ) : ℚ) ≤ 2 ^ (24 : ℕ) := by exact_mod_cast hm
    have hT : ((|m| : ℤ) : ℚ) * 2 ^ e ≤ 2 ^ (c + 23) := by
      calc ((|m| : ℤ) : ℚ) * 2 ^ e ≤ 2 ^ (24 : ℕ) * 2 ^ e :=
            mul_le_mul_of_nonneg_right hm2 (by positivity)
        _ = 2 ^ (e + 24) := by rw [zpow_add₀ (by norm_num)]; norm_num; ring
        _ ≤ 2 ^ (c + 23) := zpow_le_zpow_right₀ (by norm_num) (by omega)
    have hr : |q / 2 ^ c| ≤ ((2 ^ 23 : ℤ) : ℚ) := by
      rw [abs_div, abs_of_pos (by positivity : (0 : ℚ) < 2 ^ c), div_le_iff₀ (by positivity)]
      have : ((2 ^ 23 : ℤ) : ℚ) * 2 ^ c = 2 ^ (c + 23) := by
        rw [zpow_add₀ (by norm_num)]; norm_num; ring
      rw [this]
      linarith
    have hn := roundNearestEven_abs_le _ _ hr
    have hn2 : ((|roundNearestEven (q / 2 ^ c)| : ℤ) : ℚ) ≤ ((2 ^ 23 : ℤ) : ℚ) := by
      exact_mod_cast hn
    calc ((|roundNearestEven (q / 2 ^ c)| : ℤ) : ℚ) * 2 ^ c
        ≤ ((2 ^ 23 : ℤ) : ℚ) * 2 ^ c := mul_le_mul_of_nonneg_right hn2 (by positivity)
      _ = 2 ^ (c + 23) := by rw [zpow_add₀ (by norm_num)]; norm_num; ring
      _ ≤ |q| := hlog
      _ ≤ ((|m| : ℤ) : ℚ) * 2 ^ e := h

/-- Rounding does not fall below a binary32 value that the magnitude reaches. -/
theorem abs_f32Round_ge (q : ℚ) (m e : ℤ) (hm : |m| ≤ 2 ^ 24) (he : -149 ≤ e)
    (h : (|m| : ℤ) * 2 ^ e ≤ |q|) : (|m| : ℤ) * 2 ^ e ≤ |f32Round q| := by
  by_cases hq0 : q = 0
  · subst hq0
    rw [f32Round_zero]
    exact h
  have hpos : 0 < |q| := abs_pos.mpr hq0
  rw [abs_f32Round]
  rcases le_or_lt (f32Exp q) e with hc | hc
  · obtain ⟨d, hd⟩ := Int.eq_ofNat_of_zero_le (sub_nonneg.mpr hc)
    have he2 : e = f32Exp q + d := by omega
    generalize f32Exp q = c at he2 ⊢
    subst he2
    rw [zpow_split] at h ⊢
    have hr : ((|m| * 2 ^ d : ℤ) : ℚ) ≤ |q / 2 ^ c| := by
      rw [abs_div, abs_of_pos (by positivity : (0 : ℚ) < 2 ^ c), le_div_iff₀ (by positivity)]
      push_cast at h ⊢
      linarith
    have hn := roundNearestEven_abs_ge _ _ hr
    have hn2 : ((|m| * 2 ^ d : ℤ) : ℚ) ≤ ((|roundNearestEven (q / 2 ^ c)| : ℤ) : ℚ) := by
      exact_mod_cast hn
    calc ((|m| : ℤ) : ℚ) * (2 ^ d * 2 ^ c) = ((|m| * 2 ^ d : ℤ) : ℚ) * 2 ^ c := by
          push_cast; ring
      _ ≤ ((|roundNearestEven (q / 2 ^ c)| : ℤ) : ℚ) * 2 ^ c :=
          mul_le_mul_of_nonneg_right hn2 (by positivity)
  · have hceq := f32Exp_eq_of_gt he hc
    have hlog : (2 : ℚ) ^ Int.log 2 |q| ≤ |q| := by
      exact_mod_cast Int.zpow_log_le_self (b := 2) (by norm_num) hpos
    have hL : Int.log 2 |q| = f32Exp q + 23 := by omega
    rw [hL] at hlog
    generalize f32Exp q = c at hc hlog ⊢
    have hm2 : ((|m| : ℤ) : ℚ) ≤ 2 ^ (24 : ℕ) := by exact_mod_cast hm
    have hT : ((|m| : ℤ) : ℚ) * 2 ^ e ≤ 2 ^ (c + 23) := by
      calc ((|m| : ℤ) : ℚ) * 2 ^ e ≤ 2 ^ (24 : ℕ) * 2 ^ e :=
            mul_le_mul_of_nonneg_right hm2 (by positivity)
        _ = 2 ^ (e + 24) := by rw [zpow_add₀ (by norm_num)]; norm_num; ring
        _ ≤ 2 ^ (c + 23) := zpow_le_zpow_right₀ (by norm_num) (by omega)
    have hr : ((2 ^ 23 : ℤ) : ℚ) ≤ |q / 2 ^ c| := by
      rw [abs_div, abs_of_pos (by positivity : (0 : ℚ) < 2 ^ c), le_div_iff₀ (by positivity)]
      have : ((2 ^ 23 : ℤ) : ℚ) * 2 ^ c = 2 ^ (c + 23) := by
        rw [zpow_add₀ (by norm_num)]; norm_num; ring
      rw [this]
      exact hlog
    have hn := roundNearestEven_abs_ge _ _ hr
    have hn2 : ((2 ^ 23 : ℤ) : ℚ) ≤ ((|roundNearestEven (q / 2 ^ c)| : ℤ) : ℚ) := by
      exact_mod_cast hn
    calc ((|m| : ℤ) : ℚ) * 2 ^ e ≤ 2 ^ (c + 23) := hT
      _ = ((2 ^ 23 : ℤ) : ℚ) * 2 ^ c := by rw [zpow_add₀ (by norm_num)]; norm_num; ring
      _ ≤ ((|roundNearestEven (q / 2 ^ c)| : ℤ) : ℚ) * 2 ^ c :=
          mul_le_mul_of_nonneg_right hn2 (by positivity)

theorem f32Round_le_of_le (q : ℚ) (m e : ℤ) (hm : |m| ≤ 2 ^ 24) (he : -149 ≤ e)
    (h : q ≤ (m : ℚ) * 2 ^ e) : f32Round q ≤ (m : ℚ) * 2 ^ e := by
  have hp : (0 : ℚ) < 2 ^ e := by positivity
  rcases le_or_lt 0 m with h0 | h0
  · have hT : (0 : ℚ) ≤ (m : ℚ) * 2 ^ e := by
      have : (0 : ℚ) ≤ (m : ℚ) := by exact_mod_cast h0
      positivity
    rcases le_or_lt q 0 with hq | hq
    · exact le_trans (f32Round_nonpos q hq) hT
    · have h1 := abs_f32Round_le q m e hm he (by
        rw [abs_of_pos hq, abs_of_nonneg h0]; exact h)
      rw [abs_of_nonneg h0] at h1
      exact le_trans (le_abs_self _) h1
  · have hmq : (m : ℚ) < 0 := by exact_mod_cast h0
    have hT : (m : ℚ) * 2 ^ e < 0 := mul_neg_of_neg_of_pos hmq hp
    have hq : q < 0 := lt_of_le_of_lt h hT
    have h1 := abs_f32Round_ge q m e hm he (by
      rw [abs_of_neg hq, abs_of_neg h0]; push_cast; linarith)
    rw [abs_of_nonpos (f32Round_nonpos q (le_of_lt hq)), abs_of_neg h0] at h1
    push_cast at h1
    linarith

theorem f32Round_ge_of_ge (q : ℚ) (m e : ℤ) (hm : |m| ≤ 2 ^ 24) (he : -149 ≤ e)
    (h : (m : ℚ) * 2 ^ e ≤ q) : (m : ℚ) * 2 ^ e ≤ f32Round q := by
  have hp : (0 : ℚ) < 2 ^ e := by positivity
  rcases le_or_lt m 0 with h0 | h0
  · have hT : (m : ℚ) * 2 ^ e ≤ 0 := by
      have : (m : ℚ) ≤ 0 := by exact_mod_cast h0
      exact mul_nonpos_of_nonpos_of_nonneg this (le_of_lt hp)
    rcases le_or_lt 0 q with hq | hq
    · exact le_trans hT (f32Round_nonneg q hq)
    · have h1 := abs_f32Round_le q m e hm he (by
        rw [abs_of_neg hq, abs_of_nonpos h0]; push_cast; linarith)
      rw [abs_of_nonpos h0] at h1
      push_cast at h1
      linarith [neg_abs_le (f32Round q)]
  · have hmq : (0 : ℚ) < (m : ℚ) := by exact_mod_cast h0
    have hT : 0 < (m : ℚ) * 2 ^ e := by positivity
    have hq : 0 < q := lt_of_lt_of_le hT h
    have h1 := abs_f32Round_ge q m e hm he (by
      rw [abs_of_pos hq, abs_of_pos h0]; exact h)
    rw [abs_of_nonneg (f32Round_nonneg q (le_of_lt hq)), abs_of_pos h0] at h1
    exact h1

theorem f32Round_le_int (q : ℚ) (N : ℤ) (hN : |N| ≤ 2 ^ 24) (h : q ≤ N) : f32Round q ≤ N := by
  have := f32Round_le_of_le q N 0 hN (by norm_num) (by simpa using h)
  simpa using this

theorem f32Round_ge_int (q : ℚ) (N : ℤ) (hN : |N| ≤ 2 ^ 24) (h : (N : ℚ) ≤ q) :
    (N : ℚ) ≤ f32Round q := by
  have := f32Round_ge_of_ge q N 0 hN (by norm_num) (by simpa using h)
  simpa using this

theorem f32Round_le_two_pow_25 (q : ℚ) (h : q ≤ 2 ^ 25) : f32Round q ≤ 2 ^ 25 := by
  have := f32Round_le_of_le q (2 ^ 24) 1 (by norm_num) (by norm_num) (by norm_num; linarith)
  norm_num at this ⊢
  linarith

theorem f32Round_ge_neg_two_pow_25 (q : ℚ) (h : -2 ^ 25 ≤ q) : -2 ^ 25 ≤ f32Round q := by
  have := f32Round_ge_of_ge q (-2 ^ 24) 1 (by norm_num) (by norm_num) (by norm_num; linarith)
  norm_num at this ⊢
  linarith

theorem truncToZero_ge_of_int_le (q : ℚ) (N : ℤ) (h : (N : ℚ) ≤ q) : N ≤ truncToZero q := by
  unfold truncToZero
  split_ifs
  · exact Int.le_floor.mpr h
  · have : (N : ℚ) ≤ (⌈q⌉ : ℚ) := le_trans h (Int.le_ceil q)
    exact_mod_cast this

theorem truncToZero_le_of_le_int (q : ℚ) (N : ℤ) (h : q ≤ (N : ℚ)) : truncToZero q ≤ N := by
  unfold truncToZero
  split_ifs
  · have : (⌊q⌋ : ℚ) ≤ (N : ℚ) := le_trans (Int.floor_le q) h
    exact_mod_cast this
  · exact Int.ceil_le.mpr h

/-- One axis of the integrator, bounded from below: a step of at least `pl` moves the
coordinate by at least `pl`, as long as `x + pl` is a binary32 integer. -/
theorem axis_step_ge (x pl : ℤ) (sx : ℚ) (hx : |x| ≤ 2 ^ 24) (hpl : |pl| ≤ 2 ^ 24)
    (hs : (pl : ℚ) ≤ sx * 40) (hsu : sx * 40 ≤ 2 ^ 24) (hlo : |x + pl| ≤ 2 ^ 24) :
    x + pl ≤ f32ToInt (f32Add (f32OfInt x) (f32Mul sx 40)) := by
  have hx2 := abs_le.mp hx
  have hlo2 := abs_le.mp hlo
  have hp1 : (pl : ℚ) ≤ f32Mul sx 40 := f32Round_ge_int _ pl hpl hs
  have hp2 : f32Mul sx 40 ≤ ((2 ^ 24 : ℤ) : ℚ) :=
    f32Round_le_int _ (2 ^ 24) (by norm_num) (by push_cast; exact hsu)
  rw [f32OfInt_exact x hx]
  generalize f32Mul sx 40 = p at hp1 hp2
  push_cast at hp2
  have hxq1 : (-2 ^ 24 : ℚ) ≤ x := by exact_mod_cast hx2.1
  have hxq2 : (x : ℚ) ≤ 2 ^ 24 := by exact_mod_cast hx2.2
  have hq1 : ((x + pl : ℤ) : ℚ) ≤ (x : ℚ) + p := by push_cast; linarith
  have hq2 : (x : ℚ) + p ≤ 2 ^ 25 := by norm_num at hxq2 hp2 ⊢; linarith
  have hf1 : ((x + pl : ℤ) : ℚ) ≤ f32Add x p := f32Round_ge_int _ _ hlo hq1
  have hf2 : f32Add x p ≤ 2 ^ 25 := f32Round_le_two_pow_25 _ hq2
  generalize f32Add (x : ℚ) p = r at hf1 hf2
  have hlo3 : (-2 ^ 24 : ℚ) ≤ ((x + pl : ℤ) : ℚ) := by exact_mod_cast hlo2.1
  have hr1 : (-2 ^ 24 : ℚ) ≤ r := le_trans hlo3 hf1
  rw [f32ToInt_of_abs_le r (2 ^ 25) (abs_le.mpr ⟨by norm_num at hr1 ⊢; linarith,
    by norm_num at hf2 ⊢; linarith⟩) (by norm_num)]
  exact truncToZero_ge_of_int_le r _ hf1

/-- One axis of the integrator, bounded from above. -/
theorem axis_step_le (x ph : ℤ) (sx : ℚ) (hx : |x| ≤ 2 ^ 24) (hph : |ph| ≤ 2 ^ 24)
    (hs : sx * 40 ≤ (ph : ℚ)) (hsl : -2 ^ 24 ≤ sx * 40) (hhi : |x + ph| ≤ 2 ^ 24) :
    f32ToInt (f32Add (f32OfInt x) (f32Mul sx 40)) ≤ x + ph := by
  have hx2 := abs_le.mp hx
  have hhi2 := abs_le.mp hhi
  have hp1 : f32Mul sx 40 ≤ (ph : ℚ) := f32Round_le_int _ ph hph hs
  have hp2 : ((-2 ^ 24 : ℤ) : ℚ) ≤ f32Mul sx 40 :=
    f32Round_ge_int _ (-2 ^ 24) (by norm_num) (by push_cast; exact hsl)
  rw [f32OfInt_exact x hx]
  generalize f32Mul sx 40 = p at hp1 hp2
  push_cast at hp2
  have hxq1 : (-2 ^ 24 : ℚ) ≤ x := by exact_mod_cast hx2.1
  have hxq2 : (x : ℚ) ≤ 2 ^ 24 := by exact_mod_cast hx2.2
  have hq1 : (x : ℚ) + p ≤ ((x + ph : ℤ) : ℚ) := by push_cast; linarith
  have hq2 : -2 ^ 25 ≤ (x : ℚ) + p := by norm_num at hxq1 hp2 ⊢; linarith
  have hf1 : f32Add x p ≤ ((x + ph : ℤ) : ℚ) := f32Round_le_int _ _ hhi hq1
  have hf2 : -2 ^ 25 ≤ f32Add x p := f32Round_ge_neg_two_pow_25 _ hq2
  generalize f32Add (x : ℚ) p = r at hf1 hf2
  have hhi3 : ((x + ph : ℤ) : ℚ) ≤ (2 ^ 24 : ℚ) := by exact_mod_cast hhi2.2
  have hr1 : r ≤ (2 ^ 24 : ℚ) := le_trans hf1 hhi3
  rw [f32ToInt_of_abs_le r (2 ^ 25) (abs_le.mpr ⟨by norm_num at hf2 ⊢; linarith,
    by norm_num at hr1 ⊢; linarith⟩) (by norm_num)]
  exact truncToZero_le_of_le_int r _ hf1

/-! ## Reachable axis states -/

theorem abs32_gt_8000 (v : ℤ) (hv : isInt32 v) (ha : abs32 v > 8000) :
    8000 < |v| ∧ |v| ≤ 2 ^ 31 := by
  unfold isInt32 at hv
  unfold abs32 wrap32 at ha
  split_ifs at ha with h
  · rw [abs_of_neg h]; omega
  · rw [abs_of_nonneg (not_lt.mp h)]; omega

theorem stored_value_bounds (v : ℤ) (hv : isInt32 v) (ha : abs32 v > 8000) :
    8001 ≤ |f32OfInt v| ∧ |f32OfInt v| ≤ 2 ^ 31 := by
  obtain ⟨h1, h2⟩ := abs32_gt_8000 v hv ha
  have h1q : (8001 : ℚ) ≤ |(v : ℚ)| := by
    have : (8001 : ℤ) ≤ |v| := by omega
    exact_mod_cast this
  have h2q : |(v : ℚ)| ≤ 2 ^ 31 := by exact_mod_cast h2
  unfold f32OfInt
  constructor
  · have := abs_f32Round_ge (v : ℚ) 8001 0 (by norm_num) (by norm_num) (by
      norm_num; exact h1q)
    norm_num at this
    exact this
  · have := abs_f32Round_le (v : ℚ) (2 ^ 24) 7 (by norm_num) (by norm_num) (by
      norm_num at h2q ⊢; exact h2q)
    norm_num at this ⊢
    exact this

theorem stored_stick_bounds (v : ℤ) (hv : isInt32 v) (ha : abs32 v > 8000) :
    (8001 / 32768 ≤ |f32OfInt v / 32768| ∧ |f32OfInt v / 32768| ≤ 65536) ∧
    (8001 / 32768 ≤ |f32OfInt v / (-32768)| ∧ |f32OfInt v / (-32768)| ≤ 65536) := by
  obtain ⟨h1, h2⟩ := stored_value_bounds v hv ha
  have e1 : |f32OfInt v / 32768| = |f32OfInt v| / 32768 := by
    rw [abs_div]; norm_num
  have e2 : |f32OfInt v / (-32768)| = |f32OfInt v| / 32768 := by
    rw [abs_div]; norm_num
  rw [e1, e2]
  have h3 : (8001 : ℚ) / 32768 ≤ |f32OfInt v| / 32768 :=
    div_le_div_of_nonneg_right h1 (by norm_num)
  have h4 : |f32OfInt v| / 32768 ≤ 65536 := by
    rw [div_le_iff₀ (by norm_num)]
    norm_num at h2 ⊢
    exact h2
  exact ⟨⟨h3, h4⟩, ⟨h3, h4⟩⟩

/-- In every reachable state each component of the axis state is `0` or a stored stick
value, of magnitude between `8001 / 32768` and `65536`. -/
theorem reachable_stick (b : ButtonBinding) (k : KeyboardController)
    (h : KeyboardController.Reachable b k) :
    (k.m_stick_x = 0 ∨ (8001 / 32768 ≤ |k.m_stick_x| ∧ |k.m_stick_x| ≤ 65536)) ∧
    (k.m_stick_y = 0 ∨ (8001 / 32768 ≤ |k.m_stick_y| ∧ |k.m_stick_y| ≤ 65536)) := by
  induction h with
  | constructed => exact ⟨Or.inl rfl, Or.inl rfl⟩
  | parse k ev _ hv ih =>
    by_cases hax : ev.type = EV_ABS ∧ (ev.code = ABS_RX ∨ ev.code = ABS_RY)
    · obtain ⟨t, c, v⟩ := ev
      obtain ⟨ht, hc⟩ := hax
      simp only at ht hc hv
      subst ht
      rcases hc with rfl | rfl
      · rw [parse_rx_eq]
        refine ⟨?_, ih.2⟩
        by_cases ha : abs32 v > 8000
        · simp only [ha, if_true]
          exact Or.inr (stored_stick_bounds v hv ha).1
        · simp only [ha, if_false]
          exact Or.inl trivial
      · rw [parse_ry_eq]
        refine ⟨ih.1, ?_⟩
        by_cases ha : abs32 v > 8000
        · simp only [ha, if_true]
          exact Or.inr (stored_stick_bounds v hv ha).2
        · simp only [ha, if_false]
          exact Or.inl trivial
    · rw [parse_frame b k ev hax]; exact ih
  | on_timeout k pos _ ih => exact ih

theorem step_bounds (sx : ℚ) (h : 8001 / 32768 ≤ |sx| ∧ |sx| ≤ 65536) :
    ((9 : ℤ) ≤ sx * 40 ∧ sx * 40 ≤ ((2621440 : ℤ) : ℚ)) ∨
    (((-2621440 : ℤ) : ℚ) ≤ sx * 40 ∧ sx * 40 ≤ ((-9 : ℤ) : ℚ)) := by
  obtain ⟨h1, h2⟩ := h
  rcases le_or_lt 0 sx with h0 | h0
  · rw [abs_of_nonneg h0] at h1 h2
    left
    constructor <;> push_cast <;> linarith
  · rw [abs_of_neg h0] at h1 h2
    right
    constructor <;> push_cast <;> linarith

/-- One tick with a stored non-zero stick value moves the coordinate by at least 9. -/
theorem one_step_axis (x : ℤ) (sx : ℚ) (hx : |x| ≤ 2 ^ 24 - 9)
    (hs : 8001 / 32768 ≤ |sx| ∧ |sx| ≤ 65536) :
    9 ≤ |f32ToInt (f32Add (f32OfInt x) (f32Mul sx 40)) - x| := by
  have hx2 := abs_le.mp hx
  rcases step_bounds sx hs with ⟨h1, h2⟩ | ⟨h1, h2⟩
  · have := axis_step_ge x 9 sx (abs_le.mpr ⟨by omega, by omega⟩) (by norm_num) h1
      (by push_cast at h2; linarith) (abs_le.mpr ⟨by omega, by omega⟩)
    exact le_trans (by omega) (le_abs_self _)
  · have := axis_step_le x (-9) sx (abs_le.mpr ⟨by omega, by omega⟩) (by norm_num) h2
      (by push_cast at h1; linarith) (abs_le.mpr ⟨by omega, by omega⟩)
    rw [abs_sub_comm]
    exact le_trans (by omega) (le_abs_self _)

/-- Two ticks with a stored non-zero stick value: the second leaves the coordinate
strictly further from the start than the first. -/
theorem two_step_axis (x : ℤ) (sx : ℚ) (hx : |x| ≤ 2 ^ 23)
    (hs : 8001 / 32768 ≤ |sx| ∧ |sx| ≤ 65536) :
    |f32ToInt (f32Add (f32OfInt x) (f32Mul sx 40)) - x| <
      |f32ToInt (f32Add (f32OfInt (f32ToInt (f32Add (f32OfInt x) (f32Mul sx 40))))
        (f32Mul sx 40)) - x| := by
  have hx2 := abs_le.mp hx
  rcases step_bounds sx hs with ⟨h1, h2⟩ | ⟨h1, h2⟩
  · have hsu : sx * 40 ≤ 2 ^ 24 := by push_cast at h2; linarith
    have hsl : -2 ^ 24 ≤ sx * 40 := by push_cast at h1; linarith
    have hxa : |x| ≤ 2 ^ 24 := abs_le.mpr ⟨by omega, by omega⟩
    have a1 := axis_step_ge x 9 sx hxa (by norm_num) h1 hsu (abs_le.mpr ⟨by omega, by omega⟩)
    have a2 := axis_step_le x 2621440 sx hxa (by norm_num) h2 hsl
      (abs_le.mpr ⟨by omega, by omega⟩)
    generalize f32ToInt (f32Add (f32OfInt x) (f32Mul sx 40)) = x1 at a1 a2 ⊢
    have a3 := axis_step_ge x1 9 sx (abs_le.mpr ⟨by omega, by omega⟩) (by norm_num) h1 hsu
      (abs_le.mpr ⟨by omega, by omega⟩)
    generalize f32ToInt (f32Add (f32OfInt x1) (f32Mul sx 40)) = x2 at a3 ⊢
    rw [abs_of_nonneg (by omega : 0 ≤ x1 - x), abs_of_nonneg (by omega : 0 ≤ x2 - x)]
    omega
  · have hsu : sx * 40 ≤ 2 ^ 24 := by push_cast at h2; linarith
    have hsl : -2 ^ 24 ≤ sx * 40 := by push_cast at h1; linarith
    have hxa : |x| ≤ 2 ^ 24 := abs_le.mpr ⟨by omega, by omega⟩
    have a1 := axis_step_le x (-9) sx hxa (by norm_num) h2 hsl
      (abs_le.mpr ⟨by omega, by omega⟩)
    have a2 := axis_step_ge x (-2621440) sx hxa (by norm_num) h1 hsu
      (abs_le.mpr ⟨by omega, by omega⟩)
    generalize f32ToInt (f32Add (f32OfInt x) (f32Mul sx 40)) = x1 at a1 a2 ⊢
    have a3 := axis_step_le x1 (-9) sx (abs_le.mpr ⟨by omega, by omega⟩) (by norm_num) h2 hsl
      (abs_le.mpr ⟨by omega, by omega⟩)
    generalize f32ToInt (f32Add (f32OfInt x1) (f32Mul sx 40)) = x2 at a3 ⊢
    rw [abs_of_nonpos (by omega : x1 - x ≤ 0), abs_of_nonpos (by omega : x2 - x ≤ 0)]
    omega

theorem roundNearestEven_of_lt_half (q : ℚ) (n : ℤ) (h1 : (n : ℚ) ≤ q) (h2 : q < n + 1 / 2) :
    roundNearestEven q = n := by
  have hfl : ⌊q⌋ = n := Int.floor_eq_iff.mpr ⟨h1, by linarith⟩
  unfold roundNearestEven
  rw [hfl, if_pos (by linarith)]

theorem parse_rx_9000 (b : ButtonBinding) :
    KeyboardController.constructed.parse b ⟨EV_ABS, ABS_RX, 9000⟩
      = ⟨⟨9000 / 32768, 0⟩, []⟩ := by
  rw [parse_rx_eq]
  have h : abs32 9000 > 8000 := by decide
  simp only [h, if_true, stick_9000]
  rfl

theorem reachable_9000 (b : ButtonBinding) :
    KeyboardController.Reachable b ⟨9000 / 32768, 0⟩ := by
  have h := KeyboardController.Reachable.parse KeyboardController.constructed
    ⟨EV_ABS, ABS_RX, 9000⟩ (KeyboardController.Reachable.constructed (b := b))
    (by unfold isInt32; norm_num)
  rw [parse_rx_9000] at h
  exact h

theorem f32Mul_9000 : f32Mul (9000 / 32768) 40 = 5625 / 512 := by
  have key : (9000 : ℚ) / 32768 * 40 = ((5625 : ℤ) : ℚ) * 2 ^ (-9 : ℤ) := by norm_num
  unfold f32Mul
  rw [key, f32Round_of_repr _ _ (by norm_num) (by norm_num)]
  norm_num

theorem f32ToInt_intCast (n : ℤ) (h : |n| < 2 ^ 31) : f32ToInt (n : ℚ) = n := by
  have h2 := abs_le.mp (le_of_lt h)
  have h3 : |n| ≤ 2 ^ 31 - 1 := by omega
  rw [f32ToInt_of_abs_le (n : ℚ) (2 ^ 31 - 1) (by exact_mod_cast h3) (by norm_num),
    truncToZero_intCast]

/-- The tick from axis state `(9000 / 32768, 0)` at `(2 ^ 30, 0)`: the step of about 11 is
lost in the rounding of the sum. -/
theorem on_timeout_9000_far :
    KeyboardController.on_timeout ⟨9000 / 32768, 0⟩ (1073741824, 0) =
      (⟨⟨9000 / 32768, 0⟩,
        [KeyboardCall.get_position, KeyboardCall.move 1073741824 0]⟩, true) := by
  have hy0 : f32ToInt (f32Add (f32OfInt 0) (f32Mul 0 40)) = 0 :=
    axis_step_centred 0 (by norm_num)
  have hof : f32OfInt 1073741824 = 1073741824 := by
    have := f32Round_of_repr (2 ^ 24) 6 (by norm_num) (by norm_num)
    norm_num at this
    unfold f32OfInt
    norm_num
    exact this
  have hadd : f32Add 1073741824 (5625 / 512) = 1073741824 := by
    unfold f32Add f32Round
    rw [f32Exp_of_binade _ 30 (by norm_num [abs_of_pos]) (by norm_num [abs_of_pos])]
    have h : roundNearestEven (((1073741824 : ℚ) + 5625 / 512) / 2 ^ (max (30 - 23) (-149) : ℤ))
        = 8388608 := roundNearestEven_of_lt_half _ 8388608 (by norm_num) (by norm_num)
    rw [h]
    norm_num
  have hto : f32ToInt 1073741824 = 1073741824 := by
    exact_mod_cast f32ToInt_intCast 1073741824 (by norm_num)
  unfold KeyboardController.on_timeout
  simp only [f32Mul_9000, hof, hadd, hto, hy0]

/-- The tick from axis state `(9000 / 32768, 0)` at `(2 ^ 26, 0)`: the rounded sum is
`2 ^ 26 + 8`. -/
theorem on_timeout_9000_mid :
    KeyboardController.on_timeout ⟨9000 / 32768, 0⟩ (67108864, 0) =
      (⟨⟨9000 / 32768, 0⟩,
        [KeyboardCall.get_position, KeyboardCall.move 67108872 0]⟩, true) := by
  have hy0 : f32ToInt (f32Add (f32OfInt 0) (f32Mul 0 40)) = 0 :=
    axis_step_centred 0 (by norm_num)
  have hof : f32OfInt 67108864 = 67108864 := by
    have := f32Round_of_repr (2 ^ 24) 2 (by norm_num) (by norm_num)
    norm_num at this
    unfold f32OfInt
    norm_num
    exact this
  have hadd : f32Add 67108864 (5625 / 512) = 67108872 := by
    unfold f32Add f32Round
    rw [f32Exp_of_binade _ 26 (by norm_num [abs_of_pos]) (by norm_num [abs_of_pos])]
    have h : roundNearestEven (((67108864 : ℚ) + 5625 / 512) / 2 ^ (max (26 - 23) (-149) : ℤ))
        = 8388609 := roundNearestEven_of_lt_half _ 8388609 (by norm_num) (by norm_num)
    rw [h]
    norm_num
  have hto : f32ToInt 67108872 = 67108872 := by
    exact_mod_cast f32ToInt_intCast 67108872 (by norm_num)
  unfold KeyboardController.on_timeout
  simp only [f32Mul_9000, hof, hadd, hto, hy0]

/-- The tick from the axis state `(1 / 128, 0)`, which `parse` never stores, at `(0, 0)`:
the step of `5 / 16` is truncated away. -/
theorem on_timeout_small :
    KeyboardController.on_timeout ⟨1 / 128, 0⟩ (0, 0) =
      (⟨⟨1 / 128, 0⟩, [KeyboardCall.get_position, KeyboardCall.move 0 0]⟩, true) := by
  have hy0 : f32ToInt (f32Add (f32OfInt 0) (f32Mul 0 40)) = 0 :=
    axis_step_centred 0 (by norm_num)
  have hx := axis_step_exact 0 256 (by norm_num) (by norm_num)
  have ht : truncToZero (((0 : ℤ) : ℚ) + ((256 : ℤ) : ℚ) / 32768 * 40) = 0 :=
    truncToZero_of_nonneg _ 0 (by norm_num) (by norm_num) (by norm_num)
  have e : ((256 : ℤ) : ℚ) / 32768 = 1 / 128 := by norm_num
  rw [ht, e] at hx
  unfold KeyboardController.on_timeout
  simp only [hx, hy0]

/-- The tick from axis state `(9000 / 32768, 0)` at a position `(x, 0)` with
`|x| ≤ 4056`. -/
theorem on_timeout_9000_near (x : ℤ) (hx : |x| ≤ 4056) :
    KeyboardController.on_timeout ⟨9000 / 32768, 0⟩ (x, 0) =
      (⟨⟨9000 / 32768, 0⟩, [KeyboardCall.get_position,
        KeyboardCall.move (truncToZero ((x : ℚ) + 5625 / 512)) 0]⟩, true) := by
  have hy0 : f32ToInt (f32Add (f32OfInt 0) (f32Mul 0 40)) = 0 :=
    axis_step_centred 0 (by norm_num)
  have h := axis_step_exact x 9000 (by norm_num) hx
  have e : ((9000 : ℤ) : ℚ) / 32768 = 9000 / 32768 := by norm_num
  have e2 : (x : ℚ) + 9000 / 32768 * 40 = (x : ℚ) + 5625 / 512 := by norm_num
  rw [e, e2] at h
  unfold KeyboardController.on_timeout
  simp only [h, hy0]

/-! ## Ticks of the integrator in reachable states -/

/-- C13 (amended). For every axis state reachable from the constructed state (each
non-zero component a stored stick value) and every starting position with
`|x|, |y| ≤ 2 ^ 23`, when `get_position` returns the position last passed to `move`, two
consecutive calls of `on_timeout` with the axis state unchanged leave the coordinate of
every axis whose component is non-zero strictly further from the start after the second
tick than after the first. -/
theorem two_ticks_displacement (b : ButtonBinding) (k : KeyboardController)
    (h : KeyboardController.Reachable b k) (x y : ℤ) (hx : |x| ≤ 2 ^ 23)
    (hy : |y| ≤ 2 ^ 23) :
    ∃ x1 y1 x2 y2 : ℤ,
      (k.on_timeout (x, y)).1.calls = [KeyboardCall.get_position, KeyboardCall.move x1 y1] ∧
      ((k.on_timeout (x, y)).1.ctrl.on_timeout (x1, y1)).1.calls
        = [KeyboardCall.get_position, KeyboardCall.move x2 y2] ∧
      (k.m_stick_x ≠ 0 → |x1 - x| < |x2 - x|) ∧
      (k.m_stick_y ≠ 0 → |y1 - y| < |y2 - y|) := by
  obtain ⟨hsx, hsy⟩ := reachable_stick b k h
  refine ⟨_, _, _, _, rfl, rfl, fun h0 => ?_, fun h0 => ?_⟩
  · exact two_step_axis x k.m_stick_x hx (hsx.resolve_left h0)
  · exact two_step_axis y k.m_stick_y hy (hsy.resolve_left h0)

/-- Witness of C13: the state reached by the event ABS RX = 9000, from position
`(0, 0)`. -/
theorem two_ticks_displacement_witness :
    ∃ x1 y1 x2 y2 : ℤ,
      (KeyboardController.on_timeout ⟨9000 / 32768, 0⟩ (0, 0)).1.calls
        = [KeyboardCall.get_position, KeyboardCall.move x1 y1] ∧
      ((KeyboardController.on_timeout ⟨9000 / 32768, 0⟩ (0, 0)).1.ctrl.on_timeout
          (x1, y1)).1.calls
        = [KeyboardCall.get_position, KeyboardCall.move x2 y2] ∧
      ((9000 / 32768 : ℚ) ≠ 0 → |x1 - 0| < |x2 - 0|) ∧
      ((0 : ℚ) ≠ 0 → |y1 - 0| < |y2 - 0|) :=
  two_ticks_displacement sampleBinding ⟨9000 / 32768, 0⟩ (reachable_9000 sampleBinding) 0 0
    (by norm_num) (by norm_num)

/-- Counterexample to C13 as stated: with the non-zero axis state `(1 / 128, 0)` at
`(0, 0)`, and with the reachable axis state `(9000 / 32768, 0)` at `(2 ^ 30, 0)`, both
ticks move to the starting position, so the displacement is `0` after the first tick and
after the second. -/
theorem two_ticks_displacement_counterexample :
    (KeyboardController.on_timeout ⟨1 / 128, 0⟩ (0, 0)).1.calls
      = [KeyboardCall.get_position, KeyboardCall.move 0 0] ∧
    ((KeyboardController.on_timeout ⟨1 / 128, 0⟩ (0, 0)).1.ctrl.on_timeout (0, 0)).1.calls
      = [KeyboardCall.get_position, KeyboardCall.move 0 0] ∧
    (KeyboardController.on_timeout ⟨9000 / 32768, 0⟩ (1073741824, 0)).1.calls
      = [KeyboardCall.get_position, KeyboardCall.move 1073741824 0] ∧
    ((KeyboardController.on_timeout ⟨9000 / 32768, 0⟩ (1073741824, 0)).1.ctrl.on_timeout
        (1073741824, 0)).1.calls
      = [KeyboardCall.get_position, KeyboardCall.move 1073741824 0] := by
  have h1 := on_timeout_small
  have h2 := on_timeout_9000_far
  refine ⟨?_, ?_, ?_, ?_⟩
  · rw [h1]
  · rw [h1]; simp only; rw [h1]
  · rw [h2]
  · rw [h2]; simp only; rw [h2]

/-- C19 (amended). In every state reachable from the constructed state by `parse` and
`on_timeout`, each component of the axis state is exactly `0` or has magnitude strictly
greater than `8000 / 32768`; and a tick of `on_timeout` with a non-zero component changes
the corresponding coordinate passed to `move` by at least 9 relative to the position
read, for every position coordinate of magnitude at most `2 ^ 24 - 9`. -/
theorem reachable_axis_step (b : ButtonBinding) (k : KeyboardController)
    (h : KeyboardController.Reachable b k) :
    (k.m_stick_x = 0 ∨ 8000 / 32768 < |k.m_stick_x|) ∧
    (k.m_stick_y = 0 ∨ 8000 / 32768 < |k.m_stick_y|) ∧
    ∀ x y : ℤ, ∃ x1 y1 : ℤ,
      (k.on_timeout (x, y)).1.calls = [KeyboardCall.get_position, KeyboardCall.move x1 y1] ∧
      (k.m_stick_x ≠ 0 → |x| ≤ 2 ^ 24 - 9 → 9 ≤ |x1 - x|) ∧
      (k.m_stick_y ≠ 0 → |y| ≤ 2 ^ 24 - 9 → 9 ≤ |y1 - y|) := by
  obtain ⟨hsx, hsy⟩ := reachable_stick b k h
  refine ⟨?_, ?_, fun x y => ⟨_, _, rfl, fun h0 hx => ?_, fun h0 hy => ?_⟩⟩
  · rcases hsx with h0 | ⟨h1, -⟩
    · exact Or.inl h0
    · exact Or.inr (lt_of_lt_of_le (by norm_num) h1)
  · rcases hsy with h0 | ⟨h1, -⟩
    · exact Or.inl h0
    · exact Or.inr (lt_of_lt_of_le (by norm_num) h1)
  · exact one_step_axis x k.m_stick_x hx (hsx.resolve_left h0)
  · exact one_step_axis y k.m_stick_y hy (hsy.resolve_left h0)

/-- Witness of C19: the state reached by the event ABS RX = 9000. -/
theorem reachable_axis_step_witness :
    ((9000 / 32768 : ℚ) = 0 ∨ 8000 / 32768 < |(9000 / 32768 : ℚ)|) ∧
    ∃ x1 y1 : ℤ,
      (KeyboardController.on_timeout ⟨9000 / 32768, 0⟩ (100, 100)).1.calls
        = [KeyboardCall.get_position, KeyboardCall.move x1 y1] ∧
      ((9000 / 32768 : ℚ) ≠ 0 → |(100 : ℤ)| ≤ 2 ^ 24 - 9 → 9 ≤ |x1 - 100|) ∧
      ((0 : ℚ) ≠ 0 → |(100 : ℤ)| ≤ 2 ^ 24 - 9 → 9 ≤ |y1 - 100|) :=
  ⟨(reachable_axis_step sampleBinding ⟨9000 / 32768, 0⟩ (reachable_9000 sampleBinding)).1,
   (reachable_axis_step sampleBinding ⟨9000 / 32768, 0⟩ (reachable_9000 sampleBinding)).2.2
      100 100⟩

/-- Counterexample to C19 as stated: the axis state `(9000 / 32768, 0)` is reached by the
event ABS RX = 9000 and its first component is not `0`, yet the tick at position
`(2 ^ 26, 0)` moves to `2 ^ 26 + 8`, a change of 8. -/
theorem reachable_axis_step_counterexample :
    KeyboardController.Reachable sampleBinding ⟨9000 / 32768, 0⟩ ∧
    (9000 / 32768 : ℚ) ≠ 0 ∧
    (KeyboardController.on_timeout ⟨9000 / 32768, 0⟩ (67108864, 0)).1.calls
      = [KeyboardCall.get_position, KeyboardCall.move 67108872 0] ∧
    |(67108872 : ℤ) - 67108864| < 9 := by
  refine ⟨reachable_9000 sampleBinding, by norm_num, ?_, by norm_num⟩
  rw [on_timeout_9000_mid]

/-! ## Truncation toward zero -/

/-- C20 (amended). For every axis state whose components are multiples of `1 / 32768` of
magnitude at most 1 and every position with `|x|, |y| ≤ 4056`, `on_timeout` converts each
new coordinate to an integer by truncating the sum toward zero: the step taken is the
step `AxisState * 40` rounded down when the sum is not negative and rounded up when the
sum is negative, which for a fractional step is one more. -/
theorem on_timeout_truncates (k : KeyboardController) (x y a c : ℤ)
    (hsx : k.m_stick_x = (a : ℚ) / 32768) (hsy : k.m_stick_y = (c : ℚ) / 32768)
    (ha : |a| ≤ 32768) (hc : |c| ≤ 32768) (hx : |x| ≤ 4056) (hy : |y| ≤ 4056) :
    k.on_timeout (x, y) =
      (⟨k, [KeyboardCall.get_position,
            KeyboardCall.move
              (x + if 0 ≤ (x : ℚ) + k.m_stick_x * 40 then ⌊k.m_stick_x * 40⌋
                else ⌈k.m_stick_x * 40⌉)
              (y + if 0 ≤ (y : ℚ) + k.m_stick_y * 40 then ⌊k.m_stick_y * 40⌋
                else ⌈k.m_stick_y * 40⌉)]⟩, true) ∧
    ((∀ n : ℤ, (n : ℚ) ≠ k.m_stick_x * 40) → ⌈k.m_stick_x * 40⌉ = ⌊k.m_stick_x * 40⌋ + 1) ∧
    ((∀ n : ℤ, (n : ℚ) ≠ k.m_stick_y * 40) → ⌈k.m_stick_y * 40⌉ = ⌊k.m_stick_y * 40⌋ + 1) := by
  have key : ∀ (n : ℤ) (s : ℚ),
      truncToZero ((n : ℚ) + s) = n + if 0 ≤ (n : ℚ) + s then ⌊s⌋ else ⌈s⌉ := by
    intro n s
    unfold truncToZero
    split_ifs
    · exact Int.floor_int_add n s
    · rw [add_comm, Int.ceil_add_int, add_comm]
  have frac : ∀ s : ℚ, (∀ n : ℤ, (n : ℚ) ≠ s) → ⌈s⌉ = ⌊s⌋ + 1 := by
    intro s hs
    apply Int.ceil_eq_iff.mpr
    constructor
    · push_cast
      have h1 := Int.floor_le s
      have h2 : (⌊s⌋ : ℚ) ≠ s := hs ⌊s⌋
      have h3 : (⌊s⌋ : ℚ) < s := lt_of_le_of_ne h1 h2
      linarith
    · push_cast
      exact le_of_lt (Int.lt_floor_add_one s)
  refine ⟨?_, frac _, frac _⟩
  unfold KeyboardController.on_timeout
  simp only [hsx, hsy, axis_step_exact x a ha hx, axis_step_exact y c hc hy, key]

/-- Witness of C20: at position `(0, 0)` the axis state `(9000 / 32768, -9000 / 32768)`
moves to `(10, -10)`. -/
theorem on_timeout_truncates_witness :
    KeyboardController.on_timeout ⟨9000 / 32768, -9000 / 32768⟩ (0, 0) =
      (⟨⟨9000 / 32768, -9000 / 32768⟩,
        [KeyboardCall.get_position, KeyboardCall.move 10 (-10)]⟩, true) := by
  have h := (on_timeout_truncates ⟨9000 / 32768, -9000 / 32768⟩ 0 0 9000 (-9000)
    (by norm_num) (by norm_num) (by norm_num) (by norm_num) (by norm_num) (by norm_num)).1
  have e1 : ⌊(9000 / 32768 : ℚ) * 40⌋ = 10 :=
    Int.floor_eq_iff.mpr ⟨by norm_num, by norm_num⟩
  have e2 : ⌈(-9000 / 32768 : ℚ) * 40⌉ = -10 :=
    Int.ceil_eq_iff.mpr ⟨by norm_num, by norm_num⟩
  have c1 : (0 : ℚ) ≤ ((0 : ℤ) : ℚ) + 9000 / 32768 * 40 := by norm_num
  have c2 : ¬ ((0 : ℚ) ≤ ((0 : ℤ) : ℚ) + -9000 / 32768 * 40) := by norm_num
  rw [h]
  simp only [c1, c2, if_true, if_false, e1, e2]
  norm_num

/-- Counterexample to C20 as stated: with the axis state `(9000 / 32768, 0)` the step
from the negative coordinate `-5` (to `5`) and the step from the non-negative coordinate
`0` (to `10`) are both 10, although both sums, `-5 + 5625 / 512` and `5625 / 512`, are
fractional. -/
theorem on_timeout_truncates_counterexample :
    (KeyboardController.on_timeout ⟨9000 / 32768, 0⟩ (-5, 0)).1.calls
      = [KeyboardCall.get_position, KeyboardCall.move 5 0] ∧
    (KeyboardController.on_timeout ⟨9000 / 32768, 0⟩ (0, 0)).1.calls
      = [KeyboardCall.get_position, KeyboardCall.move 10 0] ∧
    (5 : ℤ) - (-5) = 10 - 0 := by
  have t1 : truncToZero (((-5 : ℤ) : ℚ) + 5625 / 512) = 5 :=
    truncToZero_of_nonneg _ 5 (by norm_num) (by norm_num) (by norm_num)
  have t2 : truncToZero (((0 : ℤ) : ℚ) + 5625 / 512) = 10 :=
    truncToZero_of_nonneg _ 10 (by norm_num) (by norm_num) (by norm_num)
  refine ⟨?_, ?_, by norm_num⟩
  · rw [on_timeout_9000_near (-5) (by norm_num), t1]
  · rw [on_timeout_9000_near 0 (by norm_num), t2]
